import Mathlib

/-!
Verification development for the llm-repl repository.

This file gives a shallow embedding of the two cores of the repository:

1. the two-agent conversation orchestrator
   (src/commands/llmconvo.rs, run_conversation_loop), and
2. the three streaming chunk decoders
   (src/providers/ollama.rs, src/providers/groq.rs, src/providers/gemini.rs,
   each in query_stream),

together with theorems settling the frozen claims about them.

Modelling conventions:
- Rust String / str values of the orchestrator are Lean String values;
  the byte buffers of the decoders are List Char (each network read is
  assumed to be valid UTF-8, so a read is a list of characters).
- The asynchronous byte stream delivered by reqwest is modelled as the
  list of its reads, List (List Char); transport-level errors are outside
  the model (the claims under study are about payload decoding).
- serde_json is modelled by an explicit character-level JSON state machine
  (section JSON model below) that distinguishes, as serde does, between
  running out of input mid-value (is_eof) and a definite syntax error.
- The process-wide cancellation flag of src/signal.rs is modelled as an
  explicit boolean threaded through the loop; the asynchronous arrival of
  a signal is modelled per turn by two booleans: one for a signal that is
  delivered before the turn-boundary check, one for a signal delivered
  while the provider call of that turn is in flight.
-/

namespace LlmRepl

/-! # Orchestrator data model (src/commands/llmconvo.rs) -/

/-- ConvoMessage from llmconvo.rs: role is one of "system", "user",
"LLM_1", "LLM_2"; content is the message text. -/
structure ConvoMessage where
  role : String
  content : String
deriving DecidableEq

/-- One item yielded by a provider stream as consumed by the loop:
either a text chunk (Ok) or a stream error (Err). -/
inductive StreamItem where
  | chunk (s : String)
  | errItem
deriving DecidableEq

instance {ε α : Type} [DecidableEq ε] [DecidableEq α] : DecidableEq (Except ε α)
  | .ok a, .ok b =>
    if h : a = b then .isTrue (by rw [h])
    else .isFalse (fun hh => h (Except.ok.inj hh))
  | .ok _, .error _ => .isFalse (fun hh => Except.noConfusion hh)
  | .error _, .ok _ => .isFalse (fun hh => Except.noConfusion hh)
  | .error a, .error b =>
    if h : a = b then .isTrue (by rw [h])
    else .isFalse (fun hh => h (Except.error.inj hh))

/-- Outcome of the provider interaction of one turn, as seen by the loop:
either query_stream returned Ok(Some(stream)) whose consumed items are
given, or the code fell back to the single-shot query (Ok(None) or an
Err on the open call), whose result is given. -/
inductive TurnOutcome where
  | streamOk (items : List StreamItem)
  | fallback (r : Except String String)
deriving DecidableEq

/-- Environment of one turn: whether a cancellation signal is delivered
before the turn-boundary check, whether one is delivered while the
provider call of this turn is in flight, and the provider outcome. -/
structure TurnSpec where
  sigBeforeCheck : Bool
  sigDuring : Bool
  outcome : TurnOutcome
deriving DecidableEq

/-- Reason a session finished, mirroring the three exit paths of
run_conversation_loop: the normal max-turns exit, the cancellation exit,
and the error return. -/
inductive FinishReason where
  | maxTurnsReached
  | cancelled
  | error (e : String)
deriving DecidableEq

/-- Record of one executed turn: the speaker role tag and the prompt text
sent to the provider. -/
structure TurnRecord where
  speaker : String
  prompt : String
deriving DecidableEq

/-- Result of a session: finish reason, final transcript, the value of
the stop flag when the function returns, and the per-turn records. -/
structure LoopRes where
  reason : FinishReason
  history : List ConvoMessage
  flagOut : Bool
  trace : List TurnRecord
deriving DecidableEq

/-- Boolean Ok test for Except. -/
def exOk : Except String String → Bool
  | .ok _ => true
  | .error _ => false

/-- Value of an Ok result, defaulting to the empty string. -/
def exVal : Except String String → String
  | .ok s => s
  | .error _ => ""

/-- The while-let consumption loop of run_conversation_loop (lines
204-217): chunks are pushed onto the accumulator; on the first error item
the literal marker " [ Stream error ]" is pushed and the loop breaks. -/
def consumeStream : List StreamItem → String → String
  | [], acc => acc
  | .chunk s :: rest, acc => consumeStream rest (acc ++ s)
  | .errItem :: _, acc => acc ++ " [ Stream error ]"

/-- The response_result of one turn (llmconvo.rs lines 199-231): a
consumed stream always produces Ok(full_response); the fallback path
returns the query result unchanged. -/
def turnResult : TurnOutcome → Except String String
  | .streamOk items => .ok (consumeStream items "")
  | .fallback r => r

/-- Spec-side concatenation of the chunk texts of a stream, in order,
ignoring error items (used to state the chunk-concatenation claims). -/
def chunksJoin : List StreamItem → String
  | [] => ""
  | .chunk s :: rest => s ++ chunksJoin rest
  | .errItem :: rest => chunksJoin rest

/-- True when the item list contains no error item. -/
def errFree : List StreamItem → Bool
  | [] => true
  | .chunk _ :: rest => errFree rest
  | .errItem :: _ => false

/-- Rendering of one transcript entry, format!("{}: {}", msg.role,
msg.content) from llmconvo.rs line 196. -/
def renderMsg (m : ConvoMessage) : String :=
  m.role ++ ": " ++ m.content

/-- The prompt built each turn (llmconvo.rs lines 195-197): the entire
history rendered entrywise and joined by a blank line. -/
def renderTranscript (h : List ConvoMessage) : String :=
  String.intercalate "\n\n" (h.map renderMsg)

/-- Whitespace test used by the trim model (the ASCII core of the
Unicode White_Space class that Rust str::trim strips; the payloads under
study contain no exotic whitespace). -/
def isWsChar (c : Char) : Bool :=
  c == ' ' || c == '\t' || c == '\n' || c == '\r'

/-- Model of Rust str::trim on character lists: strip whitespace from
both ends. -/
def trimChars (l : List Char) : List Char :=
  ((l.dropWhile isWsChar).reverse.dropWhile isWsChar).reverse

/-- Model of Rust str::trim on strings. -/
def rustTrim (s : String) : String :=
  ⟨trimChars s.data⟩

/-- Speaker role tag for a speaker index (0 is LLM_1, 1 is LLM_2). -/
def speakerName (idx : Nat) : String :=
  if idx == 0 then "LLM_1" else "LLM_2"

/-- The for-loop of run_conversation_loop (lines 178-251), one call per
turn. Arguments: environment, current turn number, remaining turns,
history, speaker index, stop flag. Each turn: the flag is checked at the
top (after merging a signal delivered before the check); if set, the
session ends Cancelled with the flag cleared. Otherwise the prompt is
built from the whole history, the provider is invoked (a signal arriving
while the call is in flight is merged into the flag after the check), and
on Ok the trimmed response is appended and the speaker swapped; on Err
the session ends with that error and the flag cleared. After the last
turn the session ends MaxTurnsReached with the flag cleared. -/
def runLoopAux (env : Nat → TurnSpec) :
    Nat → Nat → List ConvoMessage → Nat → Bool → LoopRes
  | _, 0, history, _, _ => ⟨.maxTurnsReached, history, false, []⟩
  | t, rem + 1, history, idx, flag =>
    let flag1 := flag || (env t).sigBeforeCheck
    if flag1 then ⟨.cancelled, history, false, []⟩
    else
      let speaker := speakerName idx
      let prompt := renderTranscript history
      let flag2 := flag1 || (env t).sigDuring
      match turnResult (env t).outcome with
      | .ok content =>
        let msg : ConvoMessage := ⟨speaker, rustTrim content⟩
        let res := runLoopAux env (t + 1) rem (history ++ [msg]) (1 - idx) flag2
        ⟨res.reason, res.history, res.flagOut, ⟨speaker, prompt⟩ :: res.trace⟩
      | .error e => ⟨.error e, history, false, [⟨speaker, prompt⟩]⟩

/-- run_conversation_loop (lines 151-257). The ambient stop flag value at
entry (flagIn) is discarded because the function calls reset_stop_flag()
first (line 170); the seed history is the system persona of LLM 1 and
the user topic (lines 172-174); the first speaker is LLM_1 (index 0). -/
def runConversationLoop (env : Nat → TurnSpec) (persona topic : String)
    (maxTurns : Nat) (_flagIn : Bool) : LoopRes :=
  runLoopAux env 0 maxTurns [⟨"system", persona⟩, ⟨"user", topic⟩] 0 false

/-- Messages appended by the first k turns starting at turn t with
speaker index idx, assuming every one of those turns succeeds. -/
def agentMsgs (env : Nat → TurnSpec) : Nat → Nat → Nat → List ConvoMessage
  | _, _, 0 => []
  | t, idx, k + 1 =>
    ⟨speakerName idx, rustTrim (exVal (turnResult (env t).outcome))⟩
      :: agentMsgs env (t + 1) (1 - idx) k

/-- Environment for the stream-error scenario: turn 0 streams the chunk
"Hel" and then hits a stream error; every later turn streams "ok". -/
def envC1 : Nat → TurnSpec := fun i =>
  if i == 0 then ⟨false, false, .streamOk [.chunk "Hel", .errItem]⟩
  else ⟨false, false, .streamOk [.chunk "ok"]⟩

/-- Environment in which every turn succeeds via the fallback query and
no signal is ever delivered. -/
def envOk : Nat → TurnSpec := fun _ => ⟨false, false, .fallback (.ok "x")⟩

/-- Environment in which a signal arrives during the provider call of
turn 1 and every turn succeeds. -/
def envC5 : Nat → TurnSpec := fun i => ⟨false, i == 1, .fallback (.ok "x")⟩

/-- Environment streaming a single chunk with a trailing space. -/
def envC6 : Nat → TurnSpec := fun _ => ⟨false, false, .streamOk [.chunk "Hi "]⟩

/-! # JSON model (serde_json)

The three decoders delegate wire parsing to serde_json. We model it as a
character-level state machine that consumes one character at a time and
either continues, completes the top-level value, or fails. Running out
of characters mid-value corresponds to a serde error with is_eof() true;
a failing step corresponds to a definite syntax error. Because every use
in the repository deserializes into a struct (Ollama, Groq) or a Vec
(Gemini), the top-level value is required to open with the matching
bracket, exactly as the type-driven serde deserializer does; scalars at
top level are rejected at their first character. The machine covers the
JSON used on these wires: objects, arrays, strings with the common
escapes (the \\uXXXX escape is not modelled), numbers as raw tokens, and
the three literals. Field typing mirrors the serde derive semantics:
required fields must be present with the right shape, Option fields
accept absence or null, and unknown fields are ignored. -/

/-- JSON values; numbers are kept as their raw token. -/
inductive Json where
  | null
  | bool (b : Bool)
  | num (tok : List Char)
  | str (s : List Char)
  | arr (elems : List Json)
  | obj (fields : List (List Char × Json))

/-- Enclosing-container frame of the parse stack. -/
inductive Frame where
  | inArr (elems : List Json)
  | inObj (fields : List (List Char × Json)) (key : List Char)

/-- Required shape of the top-level value, fixed by the serde target
type: a struct (object) for Ollama and Groq, a Vec (array) for Gemini. -/
inductive TopKind where
  | objTop
  | arrTop
deriving DecidableEq

/-- Parser states. The head of each stk is the container enclosing the
value currently being read. -/
inductive MState where
  | start
  | arrHead (stk : List Frame)
  | arrVal (elems : List Json) (stk : List Frame)
  | arrSep (elems : List Json) (stk : List Frame)
  | objHead (stk : List Frame)
  | objKeyQ (fields : List (List Char × Json)) (stk : List Frame)
  | keySt (fields : List (List Char × Json)) (acc : List Char) (esc : Bool)
      (stk : List Frame)
  | objColon (fields : List (List Char × Json)) (key : List Char)
      (stk : List Frame)
  | objValSt (fields : List (List Char × Json)) (key : List Char)
      (stk : List Frame)
  | objSep (fields : List (List Char × Json)) (stk : List Frame)
  | strSt (acc : List Char) (esc : Bool) (stk : List Frame)
  | numSt (acc : List Char) (stk : List Frame)
  | litSt (rest : List Char) (v : Json) (stk : List Frame)

/-- True for the initial state (only whitespace consumed so far). -/
def MState.isStart : MState → Bool
  | .start => true
  | _ => false

/-- Result of one machine step. -/
inductive StepRes where
  | err
  | doneTop (v : Json)
  | cont (st : MState)

/-- JSON whitespace (exactly the four characters serde accepts). -/
def isJsonWs (c : Char) : Bool :=
  c == ' ' || c == '\t' || c == '\n' || c == '\r'

/-- Characters accepted inside a number token. -/
def isNumChar (c : Char) : Bool :=
  c.isDigit || c == '-' || c == '+' || c == '.' || c == 'e' || c == 'E'

/-- Decoding of a simple string escape; the \\uXXXX form is outside the
model. -/
def escChar : Char → Option Char
  | '"' => some '"'
  | '\\' => some '\\'
  | '/' => some '/'
  | 'b' => some (Char.ofNat 8)
  | 'f' => some (Char.ofNat 12)
  | 'n' => some '\n'
  | 'r' => some '\r'
  | 't' => some '\t'
  | _ => none

/-- Fold a completed value into the enclosing frame, or report the
top-level value complete when the stack is empty. -/
def closeVal (v : Json) : List Frame → StepRes
  | [] => .doneTop v
  | .inArr elems :: stk => .cont (.arrSep (v :: elems) stk)
  | .inObj fields key :: stk => .cont (.objSep ((key, v) :: fields) stk)

/-- Handle a character in a separator state (after a complete element or
member). -/
def sepStep : MState → Char → StepRes
  | .arrSep elems stk, c =>
    if isJsonWs c then .cont (.arrSep elems stk)
    else if c == ',' then .cont (.arrVal elems stk)
    else if c == ']' then closeVal (.arr elems.reverse) stk
    else .err
  | .objSep fields stk, c =>
    if isJsonWs c then .cont (.objSep fields stk)
    else if c == ',' then .cont (.objKeyQ fields stk)
    else if c == '}' then closeVal (.obj fields.reverse) stk
    else .err
  | _, _ => .err

/-- A number token is ended by the delimiter c: close the number and let
the separator state consume c. -/
def numDone (acc : List Char) (stk : List Frame) (c : Char) : StepRes :=
  match closeVal (.num acc.reverse) stk with
  | .cont st => sepStep st c
  | _ => .err

/-- First character of a value inside the container frame fr. -/
def beginVal (fr : Frame) (stk : List Frame) (c : Char) : StepRes :=
  if c == '"' then .cont (.strSt [] false (fr :: stk))
  else if c == '{' then .cont (.objHead (fr :: stk))
  else if c == '[' then .cont (.arrHead (fr :: stk))
  else if c == 't' then .cont (.litSt ['r', 'u', 'e'] (.bool true) (fr :: stk))
  else if c == 'f' then .cont (.litSt ['a', 'l', 's', 'e'] (.bool false) (fr :: stk))
  else if c == 'n' then .cont (.litSt ['u', 'l', 'l'] .null (fr :: stk))
  else if c.isDigit || c == '-' then .cont (.numSt [c] (fr :: stk))
  else .err

/-- One step of the JSON machine. The TopKind parameter fixes the
bracket the start state accepts. -/
def mstep (k : TopKind) : MState → Char → StepRes
  | .start, c =>
    if isJsonWs c then .cont .start
    else
      match k with
      | .arrTop => if c == '[' then .cont (.arrHead []) else .err
      | .objTop => if c == '{' then .cont (.objHead []) else .err
  | .arrHead stk, c =>
    if isJsonWs c then .cont (.arrHead stk)
    else if c == ']' then closeVal (.arr []) stk
    else beginVal (.inArr []) stk c
  | .arrVal elems stk, c =>
    if isJsonWs c then .cont (.arrVal elems stk)
    else beginVal (.inArr elems) stk c
  | .arrSep elems stk, c => sepStep (.arrSep elems stk) c
  | .objHead stk, c =>
    if isJsonWs c then .cont (.objHead stk)
    else if c == '}' then closeVal (.obj []) stk
    else if c == '"' then .cont (.keySt [] [] false stk)
    else .err
  | .objKeyQ fields stk, c =>
    if isJsonWs c then .cont (.objKeyQ fields stk)
    else if c == '"' then .cont (.keySt fields [] false stk)
    else .err
  | .keySt fields acc esc stk, c =>
    if esc then
      match escChar c with
      | some e => .cont (.keySt fields (e :: acc) false stk)
      | none => .err
    else if c == '\\' then .cont (.keySt fields acc true stk)
    else if c == '"' then .cont (.objColon fields acc.reverse stk)
    else .cont (.keySt fields (c :: acc) false stk)
  | .objColon fields key stk, c =>
    if isJsonWs c then .cont (.objColon fields key stk)
    else if c == ':' then .cont (.objValSt fields key stk)
    else .err
  | .objValSt fields key stk, c =>
    if isJsonWs c then .cont (.objValSt fields key stk)
    else beginVal (.inObj fields key) stk c
  | .objSep fields stk, c => sepStep (.objSep fields stk) c
  | .strSt acc esc stk, c =>
    if esc then
      match escChar c with
      | some e => .cont (.strSt (e :: acc) false stk)
      | none => .err
    else if c == '\\' then .cont (.strSt acc true stk)
    else if c == '"' then closeVal (.str acc.reverse) stk
    else .cont (.strSt (c :: acc) false stk)
  | .numSt acc stk, c =>
    if isNumChar c then .cont (.numSt (c :: acc) stk)
    else if isJsonWs c || c == ',' || c == ']' || c == '}' then numDone acc stk c
    else .err
  | .litSt rest v stk, c =>
    match rest with
    | [] => .err
    | r :: rrest =>
      if c == r then
        match rrest with
        | [] => closeVal v stk
        | _ :: _ => .cont (.litSt rrest v stk)
      else .err

/-- Outcome of running the machine over a buffer: a complete value with
the unconsumed rest, out of input mid-parse (with the state reached), or
a syntax error. -/
inductive POut where
  | val (v : Json) (rest : List Char)
  | more (st : MState)
  | bad

/-- Run the machine from a state over a buffer. -/
def parseSteps (k : TopKind) : MState → List Char → POut
  | st, [] => .more st
  | st, c :: cs =>
    match mstep k st c with
    | .err => .bad
    | .doneTop v => .val v cs
    | .cont st' => parseSteps k st' cs

/-- Parse one top-level value of the given kind from the head of a
buffer (the model of one StreamDeserializer step). -/
def parseOneVal (k : TopKind) (l : List Char) : POut :=
  parseSteps k .start l

/-! # Typed deserialization (serde derive semantics) -/

/-- Lookup of an object field by key. -/
def jLookup (fields : List (List Char × Json)) (key : List Char) : Option Json :=
  match fields with
  | [] => none
  | (k, v) :: rest => if k = key then some v else jLookup rest key

/-- serde Option of String: absence and null give None, a string gives
Some, anything else is a type error (outer none). -/
def decodeOptStr (fields : List (List Char × Json)) (key : List Char) :
    Option (Option (List Char)) :=
  match jLookup fields key with
  | none => some none
  | some .null => some none
  | some (.str s) => some (some s)
  | some _ => none

/-- Validity of an Option field under a shape test (absent and null are
always valid). -/
def checkOptWith (fields : List (List Char × Json)) (key : List Char)
    (f : Json → Bool) : Bool :=
  match jLookup fields key with
  | none => true
  | some .null => true
  | some v => f v

/-- Decimal value of a pure-digit token. -/
def decDigits : List Char → Option Nat → Option Nat
  | [], acc => acc
  | c :: rest, acc =>
    match acc with
    | none => none
    | some n =>
      if c.isDigit then decDigits rest (some (n * 10 + (c.toNat - 48)))
      else none

/-- serde u32: a nonnegative pure-integer numeric token below 2^32. -/
def decodeU32 (j : Json) : Option Nat :=
  match j with
  | .num tok =>
    match tok with
    | [] => none
    | _ :: _ =>
      match decDigits tok (some 0) with
      | some n => if n < 4294967296 then some n else none
      | none => none
  | _ => none

/-- Shape test for a JSON string. -/
def isJStr : Json → Bool
  | .str _ => true
  | _ => false

/-! ## Ollama wire structs (ollama.rs lines 29-35) -/

/-- OllamaResponseChunk: response is Option of String, done is a
required bool; model and created_at are Option of String (validated but
unused). -/
structure OChunk where
  response : Option (List Char)
  done : Bool

/-- serde deserialization of OllamaResponseChunk from a JSON value. -/
def decodeOllamaChunk (j : Json) : Option OChunk :=
  match j with
  | .obj fields =>
    match decodeOptStr fields "response".data with
    | none => none
    | some ropt =>
      match jLookup fields "done".data with
      | some (.bool b) =>
        if (decodeOptStr fields "model".data).isSome
            && (decodeOptStr fields "created_at".data).isSome
        then some ⟨ropt, b⟩ else none
      | _ => none
  | _ => none

/-! ## Groq wire structs (groq.rs lines 38-60) -/

/-- serde Delta: content is Option of String. -/
def decodeDelta (j : Json) : Option (Option (List Char)) :=
  match j with
  | .obj fields => decodeOptStr fields "content".data
  | _ => none

/-- serde DeltaChoice: index is a required u32, delta a required Delta,
logprobs an Option of Value (anything), finish_reason an Option of
String. The decoded content option is returned. -/
def decodeChoice (j : Json) : Option (Option (List Char)) :=
  match j with
  | .obj fields =>
    match jLookup fields "index".data with
    | some idxv =>
      match decodeU32 idxv with
      | some _ =>
        match jLookup fields "delta".data with
        | some dv =>
          match decodeDelta dv with
          | some copt =>
            if checkOptWith fields "finish_reason".data isJStr
            then some copt else none
          | none => none
        | none => none
      | none => none
    | none => none
  | _ => none

/-- True when the rest after a parsed value is only whitespace (serde
from_str accepts trailing whitespace and nothing else). -/
def allWsChars (l : List Char) : Bool := l.all isJsonWs

/-- serde_json::from_str::<ChatCompletionChunk>: parse one object from
the whole string, require only whitespace after it, require a choices
array, and decode every choice. -/
def parseChatChunk (data : List Char) : Option (List (Option (List Char))) :=
  match parseOneVal .objTop data with
  | .val v rest =>
    if allWsChars rest then
      match v with
      | .obj fields =>
        match jLookup fields "choices".data with
        | some (.arr es) => es.mapM decodeChoice
        | _ => none
      | _ => none
    else none
  | _ => none

/-! ## Gemini wire structs (gemini.rs lines 20-52) -/

/-- Part: text is a required String. -/
structure GPart where
  text : List Char

/-- Content: role is a required String, parts an Option of Vec of Part. -/
structure GContent where
  role : List Char
  parts : Option (List GPart)

/-- Candidate: content is an Option of Content; finishReason,
safetyRatings and tokenCount are Option fields validated for shape. -/
structure GCandidate where
  content : Option GContent

/-- GeminiStreamChunk: candidates is an Option of Vec of Candidate. -/
structure GChunk where
  candidates : Option (List GCandidate)

/-- serde deserialization of Part. -/
def decodePart (j : Json) : Option GPart :=
  match j with
  | .obj fields =>
    match jLookup fields "text".data with
    | some (.str s) => some ⟨s⟩
    | _ => none
  | _ => none

/-- serde deserialization of Content. -/
def decodeContent (j : Json) : Option GContent :=
  match j with
  | .obj fields =>
    match jLookup fields "role".data with
    | some (.str r) =>
      match jLookup fields "parts".data with
      | none => some ⟨r, none⟩
      | some .null => some ⟨r, none⟩
      | some (.arr elems) =>
        match elems.mapM decodePart with
        | some ps => some ⟨r, some ps⟩
        | none => none
      | some _ => none
    | _ => none
  | _ => none

/-- Shape test for SafetyRating (category and probability required
strings). -/
def validSafetyRating (j : Json) : Bool :=
  match j with
  | .obj fields =>
    (match jLookup fields "category".data with
     | some (.str _) => true
     | _ => false)
    && (match jLookup fields "probability".data with
        | some (.str _) => true
        | _ => false)
  | _ => false

/-- serde deserialization of Candidate. -/
def decodeCandidate (j : Json) : Option GCandidate :=
  match j with
  | .obj fields =>
    match
      (match jLookup fields "content".data with
       | none => some none
       | some .null => some none
       | some v =>
         match decodeContent v with
         | some c => some (some c)
         | none => none : Option (Option GContent)) with
    | none => none
    | some copt =>
      if checkOptWith fields "finishReason".data isJStr
          && checkOptWith fields "safetyRatings".data
              (fun v => match v with
                | .arr es => es.all validSafetyRating
                | _ => false)
          && checkOptWith fields "tokenCount".data
              (fun v => (decodeU32 v).isSome)
      then some ⟨copt⟩ else none
  | _ => none

/-- serde deserialization of GeminiStreamChunk. -/
def decodeGChunk (j : Json) : Option GChunk :=
  match j with
  | .obj fields =>
    match jLookup fields "candidates".data with
    | none => some ⟨none⟩
    | some .null => some ⟨none⟩
    | some (.arr es) =>
      match es.mapM decodeCandidate with
      | some cs => some ⟨some cs⟩
      | none => none
    | some _ => none
  | _ => none

/-- serde deserialization of Vec of GeminiStreamChunk (the
StreamDeserializer item type of gemini.rs line 181). -/
def decodeGeminiTop (j : Json) : Option (List GChunk) :=
  match j with
  | .arr es => es.mapM decodeGChunk
  | _ => none

/-- The combined_text_for_event of gemini.rs lines 185-201: the
concatenation, over chunks, candidates and parts in order, of the part
texts (candidates, content and parts may each be absent, contributing
nothing). -/
def geminiText (chunks : List GChunk) : List Char :=
  (chunks.map (fun ch =>
    match ch.candidates with
    | none => []
    | some cands =>
      (cands.map (fun cand =>
        match cand.content with
        | none => []
        | some content =>
          match content.parts with
          | none => []
          | some parts => (parts.map (fun pa => pa.text)).flatten)).flatten)).flatten

/-! # The three decoders -/

/-- Decoder error item payload: Json parse and typed decode failures
surface as ReplError::Json; a network read that fails UTF-8 validation
in the Groq decoder surfaces as a ReplError::Provider item. -/
inductive DecodeErr where
  | json
  | utf8
deriving DecidableEq

/-- An item of a decoded stream: a chunk or an error. -/
abbrev GItem := Except DecodeErr (List Char)

/-! ## Ollama (ollama.rs lines 131-163)

query_stream maps each network read independently: the read is parsed
whole as one OllamaResponseChunk with no buffering across reads, and the
item is Ok(chunk.response.unwrap_or_default()) or the Json error. -/

/-- The per-read map of the Ollama stream. -/
def ollamaItem (read : List Char) : GItem :=
  match parseOneVal .objTop read with
  | .val v rest =>
    if allWsChars rest then
      match decodeOllamaChunk v with
      | some ch => .ok (ch.response.getD [])
      | none => .error .json
    else .error .json
  | _ => .error .json

/-- The Ollama stream: one item per network read. -/
def ollamaStream (reads : List (List Char)) : List GItem :=
  reads.map ollamaItem

/-- Concatenation of the Ok chunks of a stream (the ResponseText a
consumer accumulates). -/
def okConcat : List GItem → List Char
  | [] => []
  | .ok s :: rest => s ++ okConcat rest
  | .error _ :: rest => okConcat rest

/-! ## Groq (groq.rs lines 242-308 and process_sse_message 316-353)

The unfold keeps a buffer of undecoded text. As long as the buffer holds
a complete SSE message (terminated by the blank-line delimiter), the
message is drained and processed, yielding its content when
process_sse_message returns Some; when no complete message is left, the
next read is appended; at end of stream a nonempty leftover gets one
final processing attempt. The unfold-plus-filter is flattened here into
the list of all yielded chunks; transport and UTF-8 errors (the only Err
items this decoder can yield) are outside the payload model. -/

/-- Split a buffer at the first "\n\n": the message including the
delimiter, and the rest (the find and drain of groq.rs lines 250-251). -/
def splitDNL : List Char → Option (List Char × List Char)
  | [] => none
  | [_] => none
  | c1 :: c2 :: rest =>
    if c1 = '\n' ∧ c2 = '\n' then some (['\n', '\n'], rest)
    else
      match splitDNL (c2 :: rest) with
      | some (m, r) => some (c1 :: m, r)
      | none => none

/-- Drain every complete message from the buffer (fueled by the buffer
length; each message removes at least the two delimiter characters). -/
def groqDrain : Nat → List Char → List (List Char) × List Char
  | 0, b => ([], b)
  | fuel + 1, b =>
    match splitDNL b with
    | some (m, r) =>
      let res := groqDrain fuel r
      (m :: res.1, res.2)
    | none => ([], b)

/-- Rust str::lines on a character list: split at newlines, drop one
trailing carriage return per line, and drop the final empty segment
produced by a trailing newline. -/
def splitNl : List Char → List (List Char)
  | [] => [[]]
  | '\n' :: rest => [] :: splitNl rest
  | c :: rest =>
    match splitNl rest with
    | [] => [[c]]
    | l :: ls => (c :: l) :: ls

/-- Drop a trailing carriage return. -/
def stripCr (l : List Char) : List Char :=
  if l.getLast? = some '\r' then l.dropLast else l

/-- Rust str::lines. -/
def rustLines (s : List Char) : List (List Char) :=
  let segs := splitNl s
  let segs2 := if segs.getLast? = some [] then segs.dropLast else segs
  segs2.map stripCr

/-- The data-prefix test of groq.rs line 319: a line starting with
"data:" yields the payload after the prefix. -/
def sseData (line : List Char) : Option (List Char) :=
  match line with
  | 'd' :: 'a' :: 't' :: 'a' :: ':' :: rest => some rest
  | _ => none

/-- Content of one parsed chunk: the concatenation of the present delta
contents of its choices (groq.rs lines 332-336). -/
def chunkContent (choices : List (Option (List Char))) : List Char :=
  (choices.map (fun c => c.getD [])).flatten

/-- The line loop of process_sse_message: data lines accumulate decoded
content; the [DONE] sentinel and any parse failure make the whole block
yield nothing; at the end an empty accumulator yields nothing. -/
def processSseLines : List (List Char) → List Char → Option (List Char)
  | [], acc => if acc.isEmpty then none else some acc
  | line :: rest, acc =>
    match sseData line with
    | none => processSseLines rest acc
    | some raw =>
      let data := trimChars raw
      if data = "[DONE]".data then none
      else if data.isEmpty then processSseLines rest acc
      else
        match parseChatChunk data with
        | some choices => processSseLines rest (acc ++ chunkContent choices)
        | none => none

/-- process_sse_message (groq.rs lines 316-353). -/
def processSse (msg : List Char) : Option (List Char) :=
  processSseLines (rustLines msg) []

/-- The char-level core of the flattened Groq unfold, covering the text
buffer after each read has passed UTF-8 validation: drain and process
the buffered complete messages, then consume the next (already decoded)
read; at end of stream process a nonempty leftover once. The per-read
String::from_utf8 validation of groq.rs lines 262-271, whose failure
yields an error item with the read dropped, is modelled on top of this
by groqGoB below. -/
def groqGo : List (List Char) → List Char → List (List Char)
  | [], buffer =>
    ((groqDrain buffer.length buffer).1.filterMap processSse)
      ++ (if (groqDrain buffer.length buffer).2.isEmpty then []
          else ((processSse (groqDrain buffer.length buffer).2).toList))
  | r :: rs, buffer =>
    ((groqDrain buffer.length buffer).1.filterMap processSse)
      ++ groqGo rs ((groqDrain buffer.length buffer).2 ++ r)

/-- The char-level Groq stream for UTF-8-clean reads, including the
final filter of groq.rs lines 299-305 that drops empty chunks. -/
def groqDecode (reads : List (List Char)) : List (List Char) :=
  (groqGo reads []).filter (fun c => !c.isEmpty)

/-- Continuation byte test (10xxxxxx). -/
def utf8Cont (b : Nat) : Bool :=
  128 ≤ b && b < 192

/-- Number of continuation bytes demanded by a lead byte, or none when
the byte cannot start a sequence (stray continuation bytes 128-191 and
the always-overlong leads 192, 193, and leads above 244 are invalid). -/
def utf8Need (b : Nat) : Option Nat :=
  if b < 128 then some 0
  else if b < 194 then none
  else if b < 224 then some 1
  else if b < 240 then some 2
  else if b < 245 then some 3
  else none

/-- Code point of a two-byte sequence. -/
def utf8Cp2 (b1 b2 : Nat) : Nat := (b1 - 192) * 64 + (b2 - 128)

/-- Code point of a three-byte sequence. -/
def utf8Cp3 (b1 b2 b3 : Nat) : Nat :=
  (b1 - 224) * 4096 + (b2 - 128) * 64 + (b3 - 128)

/-- Code point of a four-byte sequence. -/
def utf8Cp4 (b1 b2 b3 b4 : Nat) : Nat :=
  (b1 - 240) * 262144 + (b2 - 128) * 4096 + (b3 - 128) * 64 + (b4 - 128)

/-- Character of a completed multi-byte sequence from its lead and
continuation bytes, rejecting overlong encodings, surrogates and
out-of-range code points. -/
def utf8Fin (lead : Nat) (conts : List Nat) : Option Char :=
  match conts with
  | [c1] => some (Char.ofNat (utf8Cp2 lead c1))
  | [c1, c2] =>
    if 2048 ≤ utf8Cp3 lead c1 c2
        ∧ (utf8Cp3 lead c1 c2 < 55296 ∨ 57344 ≤ utf8Cp3 lead c1 c2) then
      some (Char.ofNat (utf8Cp3 lead c1 c2))
    else none
  | [c1, c2, c3] =>
    if 65536 ≤ utf8Cp4 lead c1 c2 c3 ∧ utf8Cp4 lead c1 c2 c3 < 1114112 then
      some (Char.ofNat (utf8Cp4 lead c1 c2 c3))
    else none
  | _ => none

/-- Byte-at-a-time UTF-8 decoding automaton. The state is the pending
multi-byte sequence: its lead byte, the number of continuation bytes it
demands, and the continuation bytes collected so far (reversed); a
pending sequence left incomplete at the end of input is an error. -/
def utf8Go : Option (Nat × Nat × List Nat) → List Nat → Option (List Char)
  | none, [] => some []
  | some _, [] => none
  | none, b :: rest =>
    match utf8Need b with
    | none => none
    | some 0 => (utf8Go none rest).map (fun cs => Char.ofNat b :: cs)
    | some (k + 1) => utf8Go (some (b, k + 1, [])) rest
  | some (lead, need, acc), b :: rest =>
    if utf8Cont b then
      if acc.length + 1 == need then
        match utf8Fin lead ((b :: acc).reverse) with
        | some c => (utf8Go none rest).map (fun cs => c :: cs)
        | none => none
      else utf8Go (some (lead, need, b :: acc)) rest
    else none

/-- Model of Rust String::from_utf8 on a byte list: strict UTF-8
decoding, rejecting stray continuation bytes, truncated or overlong
sequences, surrogates and out-of-range code points. -/
def utf8Decode (l : List Nat) : Option (List Char) :=
  utf8Go none l

/-- The final filter_map shared by the Groq and Gemini streams
(groq.rs lines 299-305, gemini.rs line 222): empty Ok chunks are
dropped, nonempty chunks and errors pass. -/
def keepItem : GItem → Bool
  | .ok s => !s.isEmpty
  | .error _ => true

/-- The flattened Groq unfold at the byte level. Each network read is
validated whole by String::from_utf8 before its text joins the buffer
(groq.rs lines 262-271); a read that fails validation yields an error
item, its bytes are dropped, the buffer is unchanged, and the stream
keeps reading. -/
def groqGoB : List (List Nat) → List Char → List GItem
  | [], buffer => (groqGo [] buffer).map .ok
  | r :: rs, buffer =>
    (((groqDrain buffer.length buffer).1.filterMap processSse).map .ok)
      ++ match utf8Decode r with
         | some cs => groqGoB rs ((groqDrain buffer.length buffer).2 ++ cs)
         | none => .error .utf8 :: groqGoB rs (groqDrain buffer.length buffer).2

/-- The Groq stream for a list of byte reads, including the final
filter of groq.rs lines 299-305 (empty Ok chunks dropped, errors
passed). -/
def groqDecodeB (reads : List (List Nat)) : List GItem :=
  (groqGoB reads []).filter keepItem

/-! ## Gemini (gemini.rs lines 176-225)

The unfold keeps a byte buffer. The inner loop repeatedly parses one
complete Vec of GeminiStreamChunk from the buffer head: on success it
splits off the consumed bytes and yields the concatenated candidate part
texts when nonempty; an eof parse error breaks to read more bytes with
the buffer kept; any other parse or deserialization error yields an
error item and clears the buffer; a clean end of input (StreamDeserializer
returning None) clears a nonempty (whitespace-only) buffer. After the
inner loop the next read is appended (the intervening Ok(String::new())
items are dropped by the filter and elided here); at end of stream a
leftover buffer is dropped with a warning. -/

/-- Drain all complete top-level values from the buffer head (fueled by
the buffer length; a parsed value consumes at least one character). -/
def geminiDrain : Nat → List Char → List GItem × List Char
  | 0, buffer => ([], buffer)
  | fuel + 1, buffer =>
    match parseOneVal .arrTop buffer with
    | .val v rest =>
      match decodeGeminiTop v with
      | some chunks =>
        let t := geminiText chunks
        let res := geminiDrain fuel rest
        (if t.isEmpty then res.1 else .ok t :: res.1, res.2)
      | none => ([.error .json], [])
    | .more st => ([], if st.isStart then [] else buffer)
    | .bad => ([.error .json], [])

/-- The flattened unfold of the Gemini stream. -/
def geminiGo : List (List Char) → List Char → List GItem
  | [], buffer => (geminiDrain buffer.length buffer).1
  | r :: rs, buffer =>
    (geminiDrain buffer.length buffer).1
      ++ geminiGo rs ((geminiDrain buffer.length buffer).2 ++ r)

/-- The Gemini stream for a list of reads. -/
def geminiDecode (reads : List (List Char)) : List GItem :=
  (geminiGo reads []).filter keepItem

/-! # Readiness (providers/mod.rs, ollama.rs, groq.rs) -/

/-- Configuration of the Ollama provider (ollama.rs lines 176-180): the
base URL; the HTTP client carries no credential state. -/
structure OllamaConfig where
  baseUrl : String

/-- Default check_readiness of the LlmProvider trait (providers/mod.rs
lines 34-36): unconditionally Ok(()). -/
def defaultCheckReadiness : Except String Unit := .ok ()

/-- Ollama check_readiness: the impl block in ollama.rs (lines 83-174)
does not override check_readiness, so every configuration inherits the
trait default, with no credential check and no network probe. -/
def ollamaCheckReadiness (_cfg : OllamaConfig) : Except String Unit :=
  defaultCheckReadiness

/-- Groq check_readiness (groq.rs lines 197-200): calls get_api_key and
fails exactly when the key is absent. -/
def groqCheckReadiness (apiKey : Option String) : Except String Unit :=
  match apiKey with
  | some _ => .ok ()
  | none => .error "Groq API key is missing."

/-! # Split and error helpers for the decoder claims -/

/-- One-byte-at-a-time split of a payload. -/
def oneByteSplit (l : List Char) : List (List Char) :=
  l.map (fun c => [c])

/-- True when a stream contains no error item. -/
def noErrI (l : List GItem) : Bool :=
  l.all (fun it => match it with | .error _ => false | .ok _ => true)

/-- True for the out-of-input parse outcome. -/
def POut.isMoreOut : POut → Bool
  | .more _ => true
  | _ => false

/-- True for the syntax-error parse outcome. -/
def POut.isBadOut : POut → Bool
  | .bad => true
  | _ => false

/-! # Concrete wire payloads used by the claims -/

/-- A complete newline-JSON chunk as one read. -/
def ollamaPayload : List Char := "\x7b\"response\":\"Hi\",\"done\":true\x7d".data

/-- A newline-JSON chunk with no response field. -/
def ollamaNoResp : List Char := "\x7b\"done\":false\x7d".data

/-- The SSE event sequence of the C8 scenario exactly as the spec writes
it: the delta event lacks the index field that the DeltaChoice struct
requires. -/
def sseSpecEvent : List Char :=
  "data: \x7b\"choices\":[\x7b\"delta\":\x7b\"content\":\"Hi\"\x7d\x7d]\x7d\n\ndata: [DONE]\n\n".data

/-- The same SSE event sequence with the required index field present. -/
def sseIndexEvent : List Char :=
  "data: \x7b\"choices\":[\x7b\"index\":0,\"delta\":\x7b\"content\":\"Hi\"\x7d\x7d]\x7d\n\ndata: [DONE]\n\n".data

/-- ASCII bytes of a character list (every character below 128). -/
def asciiBytes (l : List Char) : List Nat :=
  l.map Char.toNat

/-- Bytes of the SSE event before the two-byte UTF-8 character. -/
def accentPre : List Char :=
  "data: \x7b\"choices\":[\x7b\"index\":0,\"delta\":\x7b\"content\":\"".data

/-- Bytes of the SSE event after the two-byte UTF-8 character. -/
def accentPost : List Char := "\"\x7d\x7d]\x7d\n\n".data

/-- A complete SSE event whose delta content is the single character
U+00E9 (bytes 195, 169 in UTF-8). -/
def sseAccentBytes : List Nat :=
  asciiBytes accentPre ++ [195, 169] ++ asciiBytes accentPost

/-- The same event split across two reads whose boundary cuts the
two-byte character: the first read ends with the lead byte 195. -/
def sseAccentCut1 : List Nat := asciiBytes accentPre ++ [195]

/-- The second read of the cut, starting with the continuation byte
169. -/
def sseAccentCut2 : List Nat := 169 :: asciiBytes accentPost

/-- A complete Gemini array carrying the text "A". -/
def gemValid : List Char :=
  "[\x7b\"candidates\":[\x7b\"content\":\x7b\"role\":\"model\",\"parts\":[\x7b\"text\":\"A\"\x7d]\x7d\x7d]\x7d]".data

/-! # Orchestrator lemmas -/

/-- The history of the loop only ever grows by appending. -/
theorem runLoopAux_history_extends (env : Nat → TurnSpec) :
    ∀ (rem t idx : Nat) (history : List ConvoMessage) (flag : Bool),
    ∃ ext, (runLoopAux env t rem history idx flag).history = history ++ ext := by
  intro rem
  induction rem with
  | zero => intro t idx history flag; exact ⟨[], by simp [runLoopAux]⟩
  | succ rem ih =>
    intro t idx history flag
    by_cases hf : (flag || (env t).sigBeforeCheck) = true
    · exact ⟨[], by simp [runLoopAux, hf]⟩
    · cases h : turnResult (env t).outcome with
      | ok c =>
        obtain ⟨ext, hext⟩ := ih (t + 1) (1 - idx)
          (history ++ [⟨speakerName idx, rustTrim c⟩])
          ((flag || (env t).sigBeforeCheck) || (env t).sigDuring)
        refine ⟨⟨speakerName idx, rustTrim c⟩ :: ext, ?_⟩
        simp only [runLoopAux, hf, if_false, h, Bool.not_eq_true] at *
        simpa [List.append_assoc] using hext
      | error e => exact ⟨[], by simp [runLoopAux, hf, h]⟩

/-- A run in which the flag stays clear and every turn succeeds reaches
the max-turns exit, and the roles of the appended transcript entries
alternate with the starting speaker index. -/
theorem runLoopAux_allOk (env : Nat → TurnSpec)
    (hsig : ∀ i, (env i).sigBeforeCheck = false ∧ (env i).sigDuring = false)
    (hok : ∀ i, exOk (turnResult (env i).outcome) = true) :
    ∀ (rem t idx : Nat) (history : List ConvoMessage), idx ≤ 1 →
    (runLoopAux env t rem history idx false).reason = .maxTurnsReached ∧
    (runLoopAux env t rem history idx false).history.map (fun m => m.role)
      = history.map (fun m => m.role)
        ++ (List.range rem).map (fun k => speakerName ((idx + k) % 2)) := by
  intro rem
  induction rem with
  | zero => intro t idx history hidx; simp [runLoopAux]
  | succ rem ih =>
    intro t idx history hidx
    have hs1 := (hsig t).1
    have hs2 := (hsig t).2
    have hokt := hok t
    cases h : turnResult (env t).outcome with
    | error e => rw [h] at hokt; simp [exOk] at hokt
    | ok c =>
      have hrec := ih (t + 1) (1 - idx)
        (history ++ [⟨speakerName idx, rustTrim c⟩]) (by omega)
      simp only [runLoopAux, hs1, hs2, Bool.or_self, Bool.or_false, h]
      rw [if_neg Bool.false_ne_true]
      dsimp only
      refine ⟨hrec.1, ?_⟩
      rw [hrec.2]
      have hfun : ∀ k, speakerName ((1 - idx + k) % 2)
          = speakerName ((idx + (k + 1)) % 2) := by
        intro k; congr 1; interval_cases idx <;> omega
      have hidx2 : (idx + 0) % 2 = idx := by interval_cases idx <;> omega
      rw [List.range_succ_eq_map, List.map_cons, List.map_map]
      simp only [List.map_append, List.map_cons, List.map_nil, Function.comp]
      rw [hidx2, List.append_assoc, List.singleton_append]
      congr 2
      exact List.map_congr_left (fun k _ => hfun k)


/-- One-step unfolding of the loop for a turn whose boundary check passes
and whose provider interaction succeeds. -/
theorem runLoopAux_step_ok (env : Nat → TurnSpec) (t rem idx : Nat)
    (history : List ConvoMessage) (c : String)
    (hs1 : (env t).sigBeforeCheck = false)
    (h : turnResult (env t).outcome = .ok c) :
    runLoopAux env t (rem + 1) history idx false
      = ⟨(runLoopAux env (t + 1) rem (history ++ [⟨speakerName idx, rustTrim c⟩])
            (1 - idx) (env t).sigDuring).reason,
         (runLoopAux env (t + 1) rem (history ++ [⟨speakerName idx, rustTrim c⟩])
            (1 - idx) (env t).sigDuring).history,
         (runLoopAux env (t + 1) rem (history ++ [⟨speakerName idx, rustTrim c⟩])
            (1 - idx) (env t).sigDuring).flagOut,
         ⟨speakerName idx, renderTranscript history⟩
           :: (runLoopAux env (t + 1) rem (history ++ [⟨speakerName idx, rustTrim c⟩])
                (1 - idx) (env t).sigDuring).trace⟩ := by
  simp only [runLoopAux, hs1, Bool.or_self, Bool.or_false, Bool.false_or, h]
  rw [if_neg Bool.false_ne_true]

/-- A turn entered with the flag already set ends the session Cancelled
at once, leaving the history untouched and clearing the flag. -/
theorem runLoopAux_flag_set (env : Nat → TurnSpec) (t rem idx : Nat)
    (history : List ConvoMessage) :
    runLoopAux env t (rem + 1) history idx true
      = ⟨.cancelled, history, false, []⟩ := by
  simp [runLoopAux]

/-- Element form of the all-ok run: the agent entry appended by the k-th
executed turn is the trimmed turn result of environment entry t + k. -/
theorem runLoopAux_history_get (env : Nat → TurnSpec)
    (hsig : ∀ i, (env i).sigBeforeCheck = false ∧ (env i).sigDuring = false)
    (hok : ∀ i, exOk (turnResult (env i).outcome) = true) :
    ∀ (k rem t idx : Nat) (history : List ConvoMessage), idx ≤ 1 → k < rem →
    (runLoopAux env t rem history idx false).history[history.length + k]?
      = some ⟨speakerName ((idx + k) % 2),
              rustTrim (exVal (turnResult (env (t + k)).outcome))⟩ := by
  intro k
  induction k with
  | zero =>
    intro rem t idx history hidx hk
    cases rem with
    | zero => exact absurd hk (by omega)
    | succ rem =>
      have hokt := hok t
      cases h : turnResult (env t).outcome with
      | error e => rw [h] at hokt; simp [exOk] at hokt
      | ok c =>
        rw [runLoopAux_step_ok env t rem idx history c (hsig t).1 h, (hsig t).2]
        dsimp only
        obtain ⟨ext, hext⟩ := runLoopAux_history_extends env rem (t + 1) (1 - idx)
          (history ++ [⟨speakerName idx, rustTrim c⟩]) false
        rw [hext, List.append_assoc, List.singleton_append,
          List.getElem?_append_right (by omega)]
        have hmod : idx % 2 = idx := by omega
        simp [hmod, h, exVal]
  | succ k ih =>
    intro rem t idx history hidx hk
    cases rem with
    | zero => exact absurd hk (by omega)
    | succ rem =>
      have hokt := hok t
      cases h : turnResult (env t).outcome with
      | error e => rw [h] at hokt; simp [exOk] at hokt
      | ok c =>
        rw [runLoopAux_step_ok env t rem idx history c (hsig t).1 h, (hsig t).2]
        dsimp only
        have hrec := ih rem (t + 1) (1 - idx)
          (history ++ [⟨speakerName idx, rustTrim c⟩]) (by omega) (by omega)
        have hlen : (history ++ [(⟨speakerName idx, rustTrim c⟩ : ConvoMessage)]).length
            = history.length + 1 := by simp
        rw [hlen] at hrec
        have hsp : speakerName ((1 - idx + k) % 2)
            = speakerName ((idx + (k + 1)) % 2) := by
          congr 1; interval_cases idx <;> omega
        have hidxarith : history.length + 1 + k = history.length + (k + 1) := by omega
        have htarith : t + 1 + k = t + (k + 1) := by omega
        rw [hidxarith, hsp, htarith] at hrec
        exact hrec

/-- Prompt form of the all-ok run: the prompt of the k-th executed turn
is the rendering of the seed history extended by the first k agent
messages. -/
theorem runLoopAux_trace_prompt (env : Nat → TurnSpec)
    (hsig : ∀ i, (env i).sigBeforeCheck = false ∧ (env i).sigDuring = false)
    (hok : ∀ i, exOk (turnResult (env i).outcome) = true) :
    ∀ (k rem t idx : Nat) (history : List ConvoMessage), idx ≤ 1 → k < rem →
    ((runLoopAux env t rem history idx false).trace.map (fun r => r.prompt))[k]?
      = some (renderTranscript (history ++ agentMsgs env t idx k)) := by
  intro k
  induction k with
  | zero =>
    intro rem t idx history hidx hk
    cases rem with
    | zero => exact absurd hk (by omega)
    | succ rem =>
      have hokt := hok t
      cases h : turnResult (env t).outcome with
      | error e => rw [h] at hokt; simp [exOk] at hokt
      | ok c =>
        rw [runLoopAux_step_ok env t rem idx history c (hsig t).1 h, (hsig t).2]
        simp [agentMsgs]
  | succ k ih =>
    intro rem t idx history hidx hk
    cases rem with
    | zero => exact absurd hk (by omega)
    | succ rem =>
      have hokt := hok t
      cases h : turnResult (env t).outcome with
      | error e => rw [h] at hokt; simp [exOk] at hokt
      | ok c =>
        rw [runLoopAux_step_ok env t rem idx history c (hsig t).1 h, (hsig t).2]
        dsimp only
        rw [List.map_cons, List.getElem?_cons_succ]
        have hrec := ih rem (t + 1) (1 - idx)
          (history ++ [⟨speakerName idx, rustTrim c⟩]) (by omega) (by omega)
        rw [hrec]
        simp only [agentMsgs, h, exVal, List.append_assoc, List.singleton_append]

/-- A signal delivered while the provider call of turn number c (counted
from the entry turn) is in flight lets that turn complete and append, and
cancels the session at the next turn boundary with the flag cleared. -/
theorem runLoopAux_cancel (env : Nat → TurnSpec)
    (hok : ∀ i, exOk (turnResult (env i).outcome) = true)
    (hsb : ∀ i, (env i).sigBeforeCheck = false) :
    ∀ (c rem t idx : Nat) (history : List ConvoMessage), idx ≤ 1 → c + 1 < rem →
    (∀ i, i < c → (env (t + i)).sigDuring = false) →
    (env (t + c)).sigDuring = true →
    (runLoopAux env t rem history idx false).reason = .cancelled ∧
    (runLoopAux env t rem history idx false).history.map (fun m => m.role)
      = history.map (fun m => m.role)
        ++ (List.range (c + 1)).map (fun k => speakerName ((idx + k) % 2)) ∧
    (runLoopAux env t rem history idx false).flagOut = false := by
  intro c
  induction c with
  | zero =>
    intro rem t idx history hidx hrem hbefore hsig
    cases rem with
    | zero => exact absurd hrem (by omega)
    | succ rem =>
      cases rem with
      | zero => exact absurd hrem (by omega)
      | succ rem =>
        have hokt := hok t
        cases h : turnResult (env t).outcome with
        | error e => rw [h] at hokt; simp [exOk] at hokt
        | ok cc =>
          rw [runLoopAux_step_ok env t (rem + 1) idx history cc (hsb t) h]
          rw [Nat.add_zero] at hsig
          rw [hsig, runLoopAux_flag_set]
          have hmod : idx % 2 = idx := by omega
          simp [List.range_succ, hmod]
  | succ c ih =>
    intro rem t idx history hidx hrem hbefore hsig
    cases rem with
    | zero => exact absurd hrem (by omega)
    | succ rem =>
      have hokt := hok t
      cases h : turnResult (env t).outcome with
      | error e => rw [h] at hokt; simp [exOk] at hokt
      | ok cc =>
        rw [runLoopAux_step_ok env t rem idx history cc (hsb t) h]
        have h0 : (env t).sigDuring = false := by
          have := hbefore 0 (by omega)
          rwa [Nat.add_zero] at this
        rw [h0]
        dsimp only
        have hrec := ih rem (t + 1) (1 - idx)
          (history ++ [⟨speakerName idx, rustTrim cc⟩]) (by omega) (by omega)
          (fun i hi => by
            have := hbefore (i + 1) (by omega)
            rwa [show t + (i + 1) = t + 1 + i by omega] at this)
          (by rwa [show t + 1 + c = t + (c + 1) by omega])
        refine ⟨hrec.1, ?_, hrec.2.2⟩
        rw [hrec.2.1]
        have hfun : ∀ k, speakerName ((1 - idx + k) % 2)
            = speakerName ((idx + (k + 1)) % 2) := by
          intro k; congr 1; interval_cases idx <;> omega
        simp only [List.map_append, List.map_cons, List.map_nil]
        rw [List.append_assoc, List.singleton_append]
        congr 1
        conv_rhs => rw [List.range_succ_eq_map, List.map_cons, List.map_map]
        have hmod : (idx + 0) % 2 = idx := by omega
        rw [hmod]
        congr 1
        exact List.map_congr_left (fun k _ => hfun k)

/-- Consuming an error-free stream accumulates exactly the concatenation
of its chunks. -/
theorem consumeStream_errFree (items : List StreamItem) :
    ∀ acc, errFree items = true →
    consumeStream items acc = acc ++ chunksJoin items := by
  induction items with
  | nil => intro acc _; simp [consumeStream, chunksJoin]
  | cons it rest ih =>
    intro acc h
    cases it with
    | chunk s =>
      rw [consumeStream, chunksJoin, ih (acc ++ s) (by simpa [errFree] using h),
        String.append_assoc]
    | errItem => simp [errFree] at h

/-- Consuming a stream whose first error follows the error-free prefix
pre accumulates the chunks of pre and then the literal marker. -/
theorem consumeStream_err (pre post : List StreamItem) :
    ∀ acc, errFree pre = true →
    consumeStream (pre ++ .errItem :: post) acc
      = acc ++ chunksJoin pre ++ " [ Stream error ]" := by
  induction pre with
  | nil => intro acc _; simp [consumeStream, chunksJoin]
  | cons it rest ih =>
    intro acc h
    cases it with
    | chunk s =>
      rw [List.cons_append, consumeStream, chunksJoin,
        ih (acc ++ s) (by simpa [errFree] using h)]
      simp [String.append_assoc]
    | errItem => simp [errFree] at h

/-! # Claim theorems for the orchestrator -/


/-- C1 counterexample: with a stream error in turn 0 of a two-turn
session, the session does NOT finish with an error — it reaches the
max-turns exit — and the partially accumulated text, with the marker
" [ Stream error ]" appended, IS appended to the transcript, after
which the second turn still runs. This falsifies the claim that the turn
aborts, the session ends Finished(Error), and the transcript is left
unchanged. -/
theorem C1_counterexample :
    (runConversationLoop envC1 "p" "t" 2 false).reason
        = FinishReason.maxTurnsReached ∧
    (runConversationLoop envC1 "p" "t" 2 false).history
      = [⟨"system", "p"⟩, ⟨"user", "t"⟩,
         ⟨"LLM_1", "Hel [ Stream error ]"⟩, ⟨"LLM_2", "ok"⟩] :=
  ⟨rfl, rfl⟩

/-- C1 (amended): if an item yielded by the consumed stream is an error,
the loop stops consuming the stream, appends the literal marker
" [ Stream error ]" to the partially accumulated text, and treats the
turn as successful, so the partial text plus marker is appended to the
transcript (after trimming) and the session continues; with every turn
succeeding this way the session still reaches MaxTurnsReached. -/
theorem C1_stream_error_not_fatal (env : Nat → TurnSpec) (p topic : String)
    (maxTurns t : Nat) (f : Bool) (pre post : List StreamItem)
    (hsig : ∀ i, (env i).sigBeforeCheck = false ∧ (env i).sigDuring = false)
    (hok : ∀ i, exOk (turnResult (env i).outcome) = true)
    (ht : (env t).outcome = .streamOk (pre ++ .errItem :: post))
    (hpre : errFree pre = true) :
    turnResult (env t).outcome
        = .ok (chunksJoin pre ++ " [ Stream error ]") ∧
    (runConversationLoop env p topic maxTurns f).reason
        = FinishReason.maxTurnsReached := by
  constructor
  · rw [ht]
    simp only [turnResult]
    rw [consumeStream_err pre post "" hpre, String.empty_append]
  · exact (runLoopAux_allOk env hsig hok maxTurns 0 0
      [⟨"system", p⟩, ⟨"user", topic⟩] (by omega)).1

/-- C1 witness: the amended theorem applied to the concrete environment
of the counterexample scenario. -/
theorem C1_witness :
    turnResult (envC1 0).outcome
        = .ok (chunksJoin [.chunk "Hel"] ++ " [ Stream error ]") ∧
    (runConversationLoop envC1 "p" "t" 2 false).reason
        = FinishReason.maxTurnsReached :=
  C1_stream_error_not_fatal envC1 "p" "t" 2 0 false [.chunk "Hel"] []
    (fun i => by cases i with | zero => exact ⟨rfl, rfl⟩ | succ n => exact ⟨rfl, rfl⟩)
    (fun i => by cases i with | zero => rfl | succ n => rfl)
    rfl rfl

/-- C4: in a session with no error and no cancellation signal, the loop
performs exactly maxTurns turns, reports MaxTurnsReached, and the
transcript roles are the two seed entries followed by exactly maxTurns
agent entries strictly alternating from LLM_1. -/
theorem C4_max_turns_alternation (env : Nat → TurnSpec) (p topic : String)
    (maxTurns : Nat) (f : Bool)
    (hsig : ∀ i, (env i).sigBeforeCheck = false ∧ (env i).sigDuring = false)
    (hok : ∀ i, exOk (turnResult (env i).outcome) = true) :
    (runConversationLoop env p topic maxTurns f).reason
        = FinishReason.maxTurnsReached ∧
    (runConversationLoop env p topic maxTurns f).history.map (fun m => m.role)
      = ["system", "user"]
        ++ (List.range maxTurns).map (fun k => speakerName (k % 2)) := by
  have h := runLoopAux_allOk env hsig hok maxTurns 0 0
    [⟨"system", p⟩, ⟨"user", topic⟩] (by omega)
  refine ⟨h.1, ?_⟩
  have h2 := h.2
  simp only [List.map_cons, List.map_nil, Nat.zero_add] at h2
  exact h2



/-- C4 witness: the theorem applied at maxTurns = 3. -/
theorem C4_witness :
    (runConversationLoop envOk "p" "t" 3 false).reason
        = FinishReason.maxTurnsReached ∧
    (runConversationLoop envOk "p" "t" 3 false).history.map (fun m => m.role)
      = ["system", "user"]
        ++ (List.range 3).map (fun k => speakerName (k % 2)) :=
  C4_max_turns_alternation envOk "p" "t" 3 false
    (fun _ => ⟨rfl, rfl⟩) (fun _ => rfl)

/-- C5: a cancellation signal delivered while the provider call of turn
tc is in flight does not abort that turn: the turn completes and its
entry is appended (the roles show tc + 1 agent entries), and the session
ends Cancelled at the next turn boundary; the flag is clear on return,
and the ambient flag value at session start is irrelevant because the
loop clears it on entry. -/
theorem C5_cancellation_boundary (env : Nat → TurnSpec) (p topic : String)
    (maxTurns tc : Nat) (f1 f2 : Bool)
    (hsb : ∀ i, (env i).sigBeforeCheck = false)
    (hok : ∀ i, exOk (turnResult (env i).outcome) = true)
    (hbefore : ∀ i, i < tc → (env i).sigDuring = false)
    (hsig : (env tc).sigDuring = true)
    (htc : tc + 1 < maxTurns) :
    (runConversationLoop env p topic maxTurns f1).reason
        = FinishReason.cancelled ∧
    (runConversationLoop env p topic maxTurns f1).history.map (fun m => m.role)
      = ["system", "user"]
        ++ (List.range (tc + 1)).map (fun k => speakerName (k % 2)) ∧
    (runConversationLoop env p topic maxTurns f1).flagOut = false ∧
    runConversationLoop env p topic maxTurns f1
        = runConversationLoop env p topic maxTurns f2 := by
  have h := runLoopAux_cancel env hok hsb tc maxTurns 0 0
    [⟨"system", p⟩, ⟨"user", topic⟩] (by omega) htc
    (fun i hi => by simpa using hbefore i hi) (by simpa using hsig)
  refine ⟨h.1, ?_, h.2.2, rfl⟩
  have h2 := h.2.1
  simp only [List.map_cons, List.map_nil, Nat.zero_add] at h2
  exact h2



/-- C5 witness: the theorem applied with the signal during turn 1 of a
three-turn session. -/
theorem C5_witness :
    (runConversationLoop envC5 "p" "t" 3 false).reason
        = FinishReason.cancelled ∧
    (runConversationLoop envC5 "p" "t" 3 false).history.map (fun m => m.role)
      = ["system", "user"]
        ++ (List.range 2).map (fun k => speakerName (k % 2)) ∧
    (runConversationLoop envC5 "p" "t" 3 false).flagOut = false ∧
    runConversationLoop envC5 "p" "t" 3 false
        = runConversationLoop envC5 "p" "t" 3 true :=
  C5_cancellation_boundary envC5 "p" "t" 3 1 false true
    (fun _ => rfl) (fun _ => rfl)
    (fun i hi => by
      cases i with
      | zero => rfl
      | succ n => exact absurd hi (by omega))
    rfl (by omega)



/-- C6 counterexample: the turn streams exactly one chunk "Hi " whose
concatenation is "Hi ", but the transcript entry appended for the turn
carries content "Hi": the code trims the accumulated response before
appending (llmconvo.rs line 237), so the appended content is NOT equal
to the concatenation of the yielded chunks. -/
theorem C6_counterexample :
    (runConversationLoop envC6 "p" "t" 1 false).history
      = [⟨"system", "p"⟩, ⟨"user", "t"⟩, ⟨"LLM_1", "Hi"⟩] ∧
    chunksJoin [.chunk "Hi "] = "Hi " ∧
    ("Hi" : String) ≠ "Hi " :=
  ⟨rfl, rfl, by decide⟩

/-- C6 (amended): on a successful streaming turn the appended message
carries the speaking agent role tag, and its content equals the
whitespace-TRIMMED ordered concatenation of the chunks yielded by that
turn. -/
theorem C6_appended_content_trimmed (env : Nat → TurnSpec) (p topic : String)
    (maxTurns t : Nat) (f : Bool) (items : List StreamItem)
    (hsig : ∀ i, (env i).sigBeforeCheck = false ∧ (env i).sigDuring = false)
    (hok : ∀ i, exOk (turnResult (env i).outcome) = true)
    (hstream : (env t).outcome = .streamOk items)
    (herr : errFree items = true)
    (ht : t < maxTurns) :
    (runConversationLoop env p topic maxTurns f).history[2 + t]?
      = some ⟨speakerName (t % 2), rustTrim (chunksJoin items)⟩ := by
  have h := runLoopAux_history_get env hsig hok t maxTurns 0 0
    [⟨"system", p⟩, ⟨"user", topic⟩] (by omega) ht
  have hl : ([⟨"system", p⟩, ⟨"user", topic⟩] : List ConvoMessage).length = 2 := rfl
  rw [hl] at h
  simp only [Nat.zero_add] at h
  rw [hstream] at h
  simp only [turnResult, exVal] at h
  rw [consumeStream_errFree items "" herr, String.empty_append] at h
  exact h

/-- C6 witness: the amended theorem applied to a turn streaming the two
chunks "a" and "b". -/
theorem C6_witness :
    (runConversationLoop (fun _ => ⟨false, false,
        .streamOk [.chunk "a", .chunk "b"]⟩) "p" "t" 1 false).history[2 + 0]?
      = some ⟨speakerName (0 % 2),
          rustTrim (chunksJoin [.chunk "a", .chunk "b"])⟩ :=
  C6_appended_content_trimmed
    (fun _ => ⟨false, false, .streamOk [.chunk "a", .chunk "b"]⟩)
    "p" "t" 1 0 false [.chunk "a", .chunk "b"]
    (fun _ => ⟨rfl, rfl⟩) (fun _ => rfl) rfl rfl (by omega)

/-- C7: the prompt sent on the k-th executed turn of an error-free,
uncancelled session is the rendering of the ENTIRE transcript at that
point — the two seed entries followed by the messages appended by the
first k turns — as "role: content" entries joined by a blank line, with
no truncation. -/
theorem C7_prompt_full_transcript (env : Nat → TurnSpec) (p topic : String)
    (maxTurns k : Nat) (f : Bool)
    (hsig : ∀ i, (env i).sigBeforeCheck = false ∧ (env i).sigDuring = false)
    (hok : ∀ i, exOk (turnResult (env i).outcome) = true)
    (hk : k < maxTurns) :
    ((runConversationLoop env p topic maxTurns f).trace.map
        (fun r => r.prompt))[k]?
      = some (renderTranscript
          ([⟨"system", p⟩, ⟨"user", topic⟩] ++ agentMsgs env 0 0 k)) :=
  runLoopAux_trace_prompt env hsig hok k maxTurns 0 0
    [⟨"system", p⟩, ⟨"user", topic⟩] (by omega) hk

/-- C7 witness: the theorem applied to the second turn of a two-turn
session. -/
theorem C7_witness :
    ((runConversationLoop envOk "p" "t" 2 false).trace.map
        (fun r => r.prompt))[1]?
      = some (renderTranscript
          ([⟨"system", "p"⟩, ⟨"user", "t"⟩] ++ agentMsgs envOk 0 0 1)) :=
  C7_prompt_full_transcript envOk "p" "t" 2 1 false
    (fun _ => ⟨rfl, rfl⟩) (fun _ => rfl) (by omega)

/-! # Claim theorems for the decoders -/

/-- C2 counterexample. First, the newline-JSON (Ollama) decoder is not
split-invariant at all: the payload is one well-formed chunk object;
delivered as a single read its decoded chunk concatenation is "Hi", but
delivered one byte at a time (the same bytes, as the flatten equation
shows) every read fails to parse and the concatenation is empty.
Second, even the SSE (Groq) decoder is not split-invariant at the byte
level: each read is validated whole by String::from_utf8, so when the
read boundary cuts the two-byte character of sseAccentBytes (the same
bytes, as the flatten equation shows), both reads fail validation and
yield error items with their bytes dropped, instead of the single chunk
of the single-read feed. -/
theorem C2_counterexample :
    (oneByteSplit ollamaPayload).flatten = [ollamaPayload].flatten ∧
    okConcat (ollamaStream [ollamaPayload]) = "Hi".data ∧
    okConcat (ollamaStream (oneByteSplit ollamaPayload)) = [] ∧
    ("Hi".data : List Char) ≠ [] ∧
    [sseAccentCut1, sseAccentCut2].flatten = [sseAccentBytes].flatten ∧
    groqDecodeB [sseAccentBytes] = [.ok [Char.ofNat 233]] ∧
    groqDecodeB [sseAccentCut1, sseAccentCut2]
        = [.error .utf8, .error .utf8] :=
  ⟨rfl, rfl, rfl, by decide, rfl, rfl, rfl⟩

/-- C3 counterexample: the Ollama decoder surfaces an empty chunk. A
read whose object has no response field parses successfully (done is
present), and the stream yields Ok of the empty string to the caller. -/
theorem C3_counterexample :
    ollamaStream [ollamaNoResp] = [.ok []] := rfl

/-- C3 (amended): the SSE (Groq) and fragmented-JSON (Gemini) decoders
never yield an empty chunk, for any input reads — both filter empty
chunks out before surfacing items; the newline-JSON (Ollama) decoder has
no such filter and yields Ok of response.unwrap_or_default per read,
which is empty when response is absent or empty. -/
theorem C3_no_empty_chunks (reads : List (List Char)) :
    (∀ c, c ∈ groqDecode reads → c ≠ []) ∧
    (∀ s, Except.ok s ∈ geminiDecode reads → s ≠ []) := by
  constructor
  · intro c hc hnil
    have hp := List.of_mem_filter hc
    subst hnil
    simp [List.isEmpty] at hp
  · intro s hs hnil
    have hp := List.of_mem_filter hs
    subst hnil
    simp [keepItem, List.isEmpty] at hp

/-- C3 witness: nonempty chunks produced by the two decoders on the
concrete payloads. -/
theorem C3_witness :
    ("Hi".data : List Char) ≠ [] ∧ ("A".data : List Char) ≠ [] :=
  ⟨(C3_no_empty_chunks [sseIndexEvent]).1 "Hi".data (by decide),
   (C3_no_empty_chunks [gemValid]).2 "A".data (by decide)⟩

/-- C8 counterexample: the SSE decoder fed exactly the event of the
claim yields NO chunk at all: the event object lacks the index field
that the DeltaChoice struct requires, so serde deserialization fails and
process_sse_message returns None for the block. -/
theorem C8_counterexample :
    groqDecode [sseSpecEvent] = [] ∧
    groqDecode [sseSpecEvent] ≠ ["Hi".data] :=
  ⟨rfl, by decide⟩

/-- C8 (amended): with the required index field present in the delta
event, the SSE decoder fed the event followed by a blank line and then
the [DONE] event yields exactly the chunk sequence ["Hi"] and ends; the
[DONE] sentinel payload yields no chunk (the whole second message block
contributes nothing). -/
theorem C8_sse_scenario :
    groqDecode [sseIndexEvent] = ["Hi".data] ∧
    processSse "data: [DONE]\n\n".data = none :=
  ⟨rfl, rfl⟩

/-- C9 counterexample: a syntax-error decode is NOT terminal for the
Gemini stream. The read "X" produces an error item and clears the
buffer, after which the next read decodes normally and a chunk follows
the error item. -/
theorem C9_counterexample :
    geminiDecode ["X".data, gemValid] = [.error .json, .ok "A".data] := rfl

/-- C10: the Ollama provider check_readiness is the inherited trait
default: it returns Ok(()) for every configuration, performing no
credential check and no network probe (unlike, for example, the Groq
override, which fails without a key). -/
theorem C10_ollama_readiness_trivial :
    (∀ cfg : OllamaConfig, ollamaCheckReadiness cfg = defaultCheckReadiness
      ∧ ollamaCheckReadiness cfg = .ok ())
    ∧ groqCheckReadiness none ≠ .ok () :=
  ⟨fun _ => ⟨rfl, rfl⟩, by decide⟩

/-! # Split invariance of the Groq decoder -/

/-- Extending the buffer does not change an already-found message. -/
theorem splitDNL_append (x : List Char) :
    ∀ (b m r : List Char), splitDNL b = some (m, r) →
    splitDNL (b ++ x) = some (m, r ++ x) := by
  intro b
  induction b with
  | nil => intro m r h; simp [splitDNL] at h
  | cons c1 tl ih =>
    intro m r h
    cases tl with
    | nil => simp [splitDNL] at h
    | cons c2 rest =>
      rw [splitDNL] at h
      by_cases hnl : c1 = '\n' ∧ c2 = '\n'
      · rw [if_pos hnl] at h
        simp only [Option.some.injEq, Prod.mk.injEq] at h
        obtain ⟨hm, hr⟩ := h
        subst hm; subst hr
        obtain ⟨rfl, rfl⟩ := hnl
        simp only [List.cons_append]
        rw [splitDNL, if_pos ⟨rfl, rfl⟩]
      · rw [if_neg hnl] at h
        cases hs : splitDNL (c2 :: rest) with
        | none => rw [hs] at h; simp at h
        | some p =>
          obtain ⟨m2, r2⟩ := p
          rw [hs] at h
          simp only [Option.some.injEq, Prod.mk.injEq] at h
          obtain ⟨hm, hr⟩ := h
          subst hm; subst hr
          simp only [List.cons_append]
          rw [splitDNL, if_neg hnl]
          have := ih m2 r2 hs
          rw [List.cons_append] at this
          rw [this]

/-- A found message reassembles the buffer and includes the two
delimiter characters. -/
theorem splitDNL_decomp :
    ∀ (b m r : List Char), splitDNL b = some (m, r) →
    b = m ++ r ∧ 2 ≤ m.length := by
  intro b
  induction b with
  | nil => intro m r h; simp [splitDNL] at h
  | cons c1 tl ih =>
    intro m r h
    cases tl with
    | nil => simp [splitDNL] at h
    | cons c2 rest =>
      rw [splitDNL] at h
      by_cases hnl : c1 = '\n' ∧ c2 = '\n'
      · rw [if_pos hnl] at h
        simp only [Option.some.injEq, Prod.mk.injEq] at h
        obtain ⟨hm, hr⟩ := h
        subst hm; subst hr
        obtain ⟨rfl, rfl⟩ := hnl
        constructor
        · rfl
        · simp
      · rw [if_neg hnl] at h
        cases hs : splitDNL (c2 :: rest) with
        | none => rw [hs] at h; simp at h
        | some p =>
          obtain ⟨m2, r2⟩ := p
          rw [hs] at h
          simp only [Option.some.injEq, Prod.mk.injEq] at h
          obtain ⟨hm, hr⟩ := h
          subst hm; subst hr
          obtain ⟨hd, hl⟩ := ih m2 r2 hs
          constructor
          · rw [List.cons_append, ← hd]
          · simp; omega

/-- The drain result does not depend on the fuel once the fuel covers
the buffer length. -/
theorem groqDrain_fuel :
    ∀ (fuel : Nat) (b : List Char), b.length ≤ fuel →
    groqDrain fuel b = groqDrain b.length b := by
  intro fuel
  induction fuel using Nat.strong_induction_on with
  | _ fuel ih =>
    intro b hb
    cases hs : splitDNL b with
    | none =>
      cases fuel with
      | zero =>
        have : b = [] := List.eq_nil_of_length_eq_zero (by omega)
        subst this; rfl
      | succ f =>
        rw [groqDrain, hs]
        cases b with
        | nil => rfl
        | cons c cs => rw [List.length_cons, groqDrain, hs]
    | some p =>
      obtain ⟨m, r⟩ := p
      obtain ⟨hb2, hm⟩ := splitDNL_decomp b m r hs
      have hlen : b.length = m.length + r.length := by rw [hb2]; simp
      cases fuel with
      | zero => omega
      | succ f =>
        obtain ⟨n, hn⟩ : ∃ n, b.length = n + 1 := ⟨b.length - 1, by omega⟩
        rw [hn]
        simp only [groqDrain, hs]
        have h1 : groqDrain f r = groqDrain r.length r := ih f (by omega) r (by omega)
        have h2 : groqDrain n r = groqDrain r.length r := ih n (by omega) r (by omega)
        rw [h1, h2]

/-- Unfolding of the full drain when no complete message is buffered. -/
theorem groqDrainL_none (b : List Char) (hs : splitDNL b = none) :
    groqDrain b.length b = ([], b) := by
  cases b with
  | nil => rfl
  | cons c cs => rw [List.length_cons, groqDrain, hs]

/-- Unfolding of the full drain when a complete message is buffered. -/
theorem groqDrainL_some (b m r : List Char) (hs : splitDNL b = some (m, r)) :
    groqDrain b.length b
      = (m :: (groqDrain r.length r).1, (groqDrain r.length r).2) := by
  obtain ⟨hb2, hm⟩ := splitDNL_decomp b m r hs
  have hlen : b.length = m.length + r.length := by rw [hb2]; simp
  obtain ⟨n, hn⟩ : ∃ n, b.length = n + 1 := ⟨b.length - 1, by omega⟩
  rw [hn]
  simp only [groqDrain, hs]
  rw [groqDrain_fuel n r (by omega)]

/-- Draining an extended buffer drains the original buffer first and
then continues from its leftover plus the extension. -/
theorem groqDrain_append :
    ∀ (n : Nat) (b x : List Char), b.length ≤ n →
    groqDrain (b ++ x).length (b ++ x)
      = ((groqDrain b.length b).1
           ++ (groqDrain ((groqDrain b.length b).2 ++ x).length
                ((groqDrain b.length b).2 ++ x)).1,
         (groqDrain ((groqDrain b.length b).2 ++ x).length
                ((groqDrain b.length b).2 ++ x)).2) := by
  intro n
  induction n using Nat.strong_induction_on with
  | _ n ih =>
    intro b x hb
    cases hs : splitDNL b with
    | none =>
      rw [groqDrainL_none b hs]
      simp
    | some p =>
      obtain ⟨m, r⟩ := p
      obtain ⟨hb2, hm⟩ := splitDNL_decomp b m r hs
      have hlen : b.length = m.length + r.length := by rw [hb2]; simp
      rw [groqDrainL_some b m r hs]
      have hsx : splitDNL (b ++ x) = some (m, r ++ x) := splitDNL_append x b m r hs
      rw [groqDrainL_some (b ++ x) m (r ++ x) hsx]
      have hrec := ih (n - 1) (by omega) r x (by omega)
      rw [hrec]
      simp [List.cons_append]

/-- Processing messages of a drained extended buffer, end case. -/
theorem groqGo_nil_append (b x : List Char) :
    groqGo [] (b ++ x)
      = (groqDrain b.length b).1.filterMap processSse
        ++ groqGo [] ((groqDrain b.length b).2 ++ x) := by
  rw [groqGo, groqGo,
    groqDrain_append b.length b x le_rfl, List.filterMap_append,
    List.append_assoc]

/-- The Groq unfold on any read sequence equals the unfold on the single
read holding the whole payload (buffer prepended). -/
theorem groqGo_split (rs : List (List Char)) :
    ∀ buffer, groqGo rs buffer = groqGo [] (buffer ++ rs.flatten) := by
  induction rs with
  | nil => intro buffer; rw [List.flatten_nil, List.append_nil]
  | cons r rs ih =>
    intro buffer
    conv_lhs => rw [groqGo]
    rw [ih ((groqDrain buffer.length buffer).2 ++ r), List.flatten_cons,
      groqGo_nil_append buffer (r ++ rs.flatten), List.append_assoc]

/-! # Split invariance of the Gemini decoder -/

/-- A value parsed from a buffer is parsed identically, with the same
unconsumed tail extended, from the extended buffer. -/
theorem parseSteps_val_append (k : TopKind) (x : List Char) :
    ∀ (l : List Char) (st : MState) (v : Json) (rest : List Char),
    parseSteps k st l = .val v rest →
    parseSteps k st (l ++ x) = .val v (rest ++ x) := by
  intro l
  induction l with
  | nil => intro st v rest h; simp [parseSteps] at h
  | cons c cs ih =>
    intro st v rest h
    rw [parseSteps] at h
    rw [List.cons_append, parseSteps]
    cases hm : mstep k st c with
    | err => rw [hm] at h; simp at h
    | doneTop v2 =>
      rw [hm] at h
      simp only [POut.val.injEq] at h
      obtain ⟨h1, h2⟩ := h
      subst h1; subst h2
      simp [hm]
    | cont st2 =>
      rw [hm] at h
      simp only [hm]
      exact ih st2 v rest h

/-- A syntax error in a buffer is a syntax error in any extension. -/
theorem parseSteps_bad_append (k : TopKind) (x : List Char) :
    ∀ (l : List Char) (st : MState),
    parseSteps k st l = .bad →
    parseSteps k st (l ++ x) = .bad := by
  intro l
  induction l with
  | nil => intro st h; simp [parseSteps] at h
  | cons c cs ih =>
    intro st h
    rw [parseSteps] at h
    rw [List.cons_append, parseSteps]
    cases hm : mstep k st c with
    | err => simp [hm]
    | doneTop v2 => rw [hm] at h; simp at h
    | cont st2 =>
      rw [hm] at h
      simp only [hm]
      exact ih st2 h

/-- Running out of input leaves the machine in a state from which the
extension continues. -/
theorem parseSteps_more_append (k : TopKind) (x : List Char) :
    ∀ (l : List Char) (st st2 : MState),
    parseSteps k st l = .more st2 →
    parseSteps k st (l ++ x) = parseSteps k st2 x := by
  intro l
  induction l with
  | nil =>
    intro st st2 h
    simp only [parseSteps, POut.more.injEq] at h
    subst h
    rw [List.nil_append]
  | cons c cs ih =>
    intro st st2 h
    rw [parseSteps] at h
    rw [List.cons_append, parseSteps]
    cases hm : mstep k st c with
    | err => rw [hm] at h; simp at h
    | doneTop v2 => rw [hm] at h; simp at h
    | cont st3 =>
      rw [hm] at h
      simp only [hm]
      exact ih st3 st2 h

/-- The unconsumed tail of a parsed value is no longer than the input. -/
theorem parseSteps_val_le (k : TopKind) :
    ∀ (l : List Char) (st : MState) (v : Json) (rest : List Char),
    parseSteps k st l = .val v rest → rest.length ≤ l.length := by
  intro l
  induction l with
  | nil => intro st v rest h; simp [parseSteps] at h
  | cons c cs ih =>
    intro st v rest h
    rw [parseSteps] at h
    cases hm : mstep k st c with
    | err => rw [hm] at h; simp at h
    | doneTop v2 =>
      rw [hm] at h
      simp only [POut.val.injEq] at h
      obtain ⟨h1, h2⟩ := h
      subst h2
      simp
    | cont st2 =>
      rw [hm] at h
      have := ih st2 v rest h
      simp
      omega

/-- The start state never completes the top-level value on the
character it consumes. -/
theorem mstep_start_not_done (k : TopKind) (c : Char) (v : Json) :
    mstep k .start c ≠ .doneTop v := by
  cases k <;> simp only [mstep] <;> split_ifs <;> simp

/-- A top-level value parsed from a buffer consumes at least one
character. -/
theorem parseOneVal_lt (k : TopKind) (b : List Char) (v : Json)
    (rest : List Char) (h : parseOneVal k b = .val v rest) :
    rest.length < b.length := by
  cases b with
  | nil => simp [parseOneVal, parseSteps] at h
  | cons c cs =>
    rw [parseOneVal, parseSteps] at h
    cases hm : mstep k .start c with
    | err => rw [hm] at h; simp at h
    | doneTop v2 => exact absurd hm (mstep_start_not_done k c v2)
    | cont st2 =>
      rw [hm] at h
      have := parseSteps_val_le k cs st2 v rest h
      simp
      omega

/-- The drain result does not depend on the fuel once the fuel covers
the buffer length. -/
theorem geminiDrain_fuel :
    ∀ (fuel : Nat) (b : List Char), b.length ≤ fuel →
    geminiDrain fuel b = geminiDrain b.length b := by
  intro fuel
  induction fuel using Nat.strong_induction_on with
  | _ fuel ih =>
    intro b hb
    cases hp : parseOneVal .arrTop b with
    | val v rest =>
      have hlt := parseOneVal_lt .arrTop b v rest hp
      cases fuel with
      | zero => omega
      | succ f =>
        obtain ⟨n, hn⟩ : ∃ n, b.length = n + 1 := ⟨b.length - 1, by omega⟩
        rw [hn]
        simp only [geminiDrain, hp]
        cases hd : decodeGeminiTop v with
        | none => rfl
        | some chunks =>
          have h1 : geminiDrain f rest = geminiDrain rest.length rest :=
            ih f (by omega) rest (by omega)
          have h2 : geminiDrain n rest = geminiDrain rest.length rest :=
            ih n (by omega) rest (by omega)
          simp only [h1, h2]
    | more st =>
      cases fuel with
      | zero =>
        have : b = [] := List.eq_nil_of_length_eq_zero (by omega)
        subst this; rfl
      | succ f =>
        cases b with
        | nil =>
          simp only [parseOneVal, parseSteps, POut.more.injEq] at hp
          subst hp
          simp [geminiDrain, parseOneVal, parseSteps, MState.isStart]
        | cons c cs =>
          rw [List.length_cons]
          simp only [geminiDrain, hp]
    | bad =>
      cases fuel with
      | zero =>
        have : b = [] := List.eq_nil_of_length_eq_zero (by omega)
        subst this
        simp [parseOneVal, parseSteps] at hp
      | succ f =>
        cases b with
        | nil => simp [parseOneVal, parseSteps] at hp
        | cons c cs =>
          rw [List.length_cons]
          simp only [geminiDrain, hp]

/-- Full-drain unfolding: parsed value with successful decode. -/
theorem geminiDrainL_val_some (b : List Char) (v : Json) (rest : List Char)
    (chunks : List GChunk) (hp : parseOneVal .arrTop b = .val v rest)
    (hd : decodeGeminiTop v = some chunks) :
    geminiDrain b.length b
      = (if (geminiText chunks).isEmpty then (geminiDrain rest.length rest).1
         else .ok (geminiText chunks) :: (geminiDrain rest.length rest).1,
         (geminiDrain rest.length rest).2) := by
  have hlt := parseOneVal_lt .arrTop b v rest hp
  obtain ⟨n, hn⟩ : ∃ n, b.length = n + 1 := ⟨b.length - 1, by omega⟩
  rw [hn]
  simp only [geminiDrain, hp, hd]
  rw [geminiDrain_fuel n rest (by omega)]

/-- Full-drain unfolding: parsed value with failing decode. -/
theorem geminiDrainL_val_none (b : List Char) (v : Json) (rest : List Char)
    (hp : parseOneVal .arrTop b = .val v rest)
    (hd : decodeGeminiTop v = none) :
    geminiDrain b.length b = ([.error .json], []) := by
  have hlt := parseOneVal_lt .arrTop b v rest hp
  obtain ⟨n, hn⟩ : ∃ n, b.length = n + 1 := ⟨b.length - 1, by omega⟩
  rw [hn]
  simp only [geminiDrain, hp, hd]

/-- Full-drain unfolding: out of input. -/
theorem geminiDrainL_more (b : List Char) (st : MState)
    (hp : parseOneVal .arrTop b = .more st) :
    geminiDrain b.length b = ([], if st.isStart then [] else b) := by
  cases b with
  | nil =>
    simp only [parseOneVal, parseSteps, POut.more.injEq] at hp
    subst hp
    simp [geminiDrain, MState.isStart]
  | cons c cs =>
    rw [List.length_cons]
    simp only [geminiDrain, hp]

/-- Full-drain unfolding: syntax error. -/
theorem geminiDrainL_bad (b : List Char)
    (hp : parseOneVal .arrTop b = .bad) :
    geminiDrain b.length b = ([.error .json], []) := by
  cases b with
  | nil => simp [parseOneVal, parseSteps] at hp
  | cons c cs =>
    rw [List.length_cons]
    simp only [geminiDrain, hp]

/-- An Ok item does not affect the no-error test. -/
theorem noErrI_cons_ok (s : List Char) (l : List GItem) :
    noErrI (.ok s :: l) = noErrI l := by
  simp [noErrI]

/-- The no-error test distributes over append. -/
theorem noErrI_append (a b : List GItem) :
    noErrI (a ++ b) = (noErrI a && noErrI b) := by
  simp [noErrI, List.all_append]

/-- If the drain of a buffer parses equally to the drain of another,
their item lists agree (only the kept leftover can differ). -/
theorem geminiDrain_items_congr (b1 b2 : List Char)
    (hp : parseOneVal .arrTop b1 = parseOneVal .arrTop b2) :
    (geminiDrain b1.length b1).1 = (geminiDrain b2.length b2).1 := by
  cases hq : parseOneVal .arrTop b2 with
  | val v rest =>
    rw [hq] at hp
    cases hd : decodeGeminiTop v with
    | some chunks =>
      rw [geminiDrainL_val_some b1 v rest chunks hp hd,
        geminiDrainL_val_some b2 v rest chunks hq hd]
    | none =>
      rw [geminiDrainL_val_none b1 v rest hp hd,
        geminiDrainL_val_none b2 v rest hq hd]
  | more st =>
    rw [hq] at hp
    rw [geminiDrainL_more b1 st hp, geminiDrainL_more b2 st hq]
  | bad =>
    rw [hq] at hp
    rw [geminiDrainL_bad b1 hp, geminiDrainL_bad b2 hq]

/-- Draining an extended buffer, when error-free, produces the items of
the original buffer followed by the items of its leftover plus the
extension. -/
theorem geminiDrain_append_items :
    ∀ (n : Nat) (b x : List Char), b.length ≤ n →
    noErrI (geminiDrain (b ++ x).length (b ++ x)).1 = true →
    (geminiDrain (b ++ x).length (b ++ x)).1
      = (geminiDrain b.length b).1
        ++ (geminiDrain ((geminiDrain b.length b).2 ++ x).length
              ((geminiDrain b.length b).2 ++ x)).1 := by
  intro n
  induction n using Nat.strong_induction_on with
  | _ n ih =>
    intro b x hb hne
    cases hp : parseOneVal .arrTop b with
    | val v rest =>
      have hlt := parseOneVal_lt .arrTop b v rest hp
      have hpx : parseOneVal .arrTop (b ++ x) = .val v (rest ++ x) :=
        parseSteps_val_append .arrTop x b .start v rest hp
      cases hd : decodeGeminiTop v with
      | some chunks =>
        rw [geminiDrainL_val_some (b ++ x) v (rest ++ x) chunks hpx hd] at hne ⊢
        rw [geminiDrainL_val_some b v rest chunks hp hd]
        have hne2 : noErrI (geminiDrain (rest ++ x).length (rest ++ x)).1 = true := by
          by_cases he : (geminiText chunks).isEmpty
          · rwa [if_pos he] at hne
          · rw [if_neg he, noErrI_cons_ok] at hne
            exact hne
        have hrec := ih (n - 1) (by omega) rest x (by omega) hne2
        rw [hrec]
        by_cases he : (geminiText chunks).isEmpty
        · rw [if_pos he, if_pos he]
        · rw [if_neg he, if_neg he, List.cons_append]
      | none =>
        rw [geminiDrainL_val_none (b ++ x) v (rest ++ x) hpx hd] at hne
        simp [noErrI] at hne
    | more st =>
      have hpx := parseSteps_more_append .arrTop x b .start st hp
      rw [geminiDrainL_more b st hp]
      cases hst : st.isStart with
      | false =>
        rw [if_neg Bool.false_ne_true]
        simp
      | true =>
        have hstart : st = .start := by
          cases st
          case start => rfl
          all_goals simp [MState.isStart] at hst
        rw [if_pos rfl]
        rw [List.nil_append]
        have hpp : parseOneVal .arrTop (b ++ x) = parseOneVal .arrTop x := by
          rw [parseOneVal, hpx, hstart, parseOneVal]
        exact geminiDrain_items_congr (b ++ x) x hpp
    | bad =>
      have hpx := parseSteps_bad_append .arrTop x b .start hp
      rw [geminiDrainL_bad (b ++ x) hpx] at hne
      simp [noErrI] at hne

/-- The Gemini unfold on any read sequence, when the whole-payload drain
is error-free, yields exactly the whole-payload drain items. -/
theorem geminiGo_split :
    ∀ (rs : List (List Char)) (buffer : List Char),
    noErrI (geminiDrain (buffer ++ rs.flatten).length
      (buffer ++ rs.flatten)).1 = true →
    geminiGo rs buffer
      = (geminiDrain (buffer ++ rs.flatten).length (buffer ++ rs.flatten)).1 := by
  intro rs
  induction rs with
  | nil =>
    intro buffer hne
    rw [List.flatten_nil, List.append_nil]
    rfl
  | cons r rs ih =>
    intro buffer hne
    rw [List.flatten_cons] at hne ⊢
    have hsplit := geminiDrain_append_items buffer.length buffer
      (r ++ rs.flatten) le_rfl hne
    rw [hsplit] at hne ⊢
    rw [noErrI_append, Bool.and_eq_true] at hne
    have hne2 := hne.2
    have hih := ih ((geminiDrain buffer.length buffer).2 ++ r) (by
      rw [List.append_assoc]
      exact hne2)
    rw [geminiGo, hih, List.append_assoc]

/-- The empty-chunk filter does not change the no-error test. -/
theorem noErrI_filter (l : List GItem) :
    noErrI (l.filter keepItem) = noErrI l := by
  induction l with
  | nil => rfl
  | cons it rest ih =>
    cases it with
    | ok s =>
      by_cases he : keepItem (.ok s) = true
      · rw [List.filter_cons_of_pos he]
        simp [noErrI] at ih ⊢
        exact ih
      · rw [List.filter_cons_of_neg he]
        simp [noErrI] at ih ⊢
        exact ih
    | error e =>
      rw [List.filter_cons_of_pos (by simp [keepItem])]
      simp [noErrI]

/-- The single-read Gemini run is the full drain of the payload. -/
theorem geminiGo_single (l : List Char) :
    geminiGo [l] [] = (geminiDrain l.length l).1 := by
  rw [geminiGo]
  simp [geminiDrain, geminiGo]

/-- Running the automaton on appended input from any state, when the
first part decodes successfully, decodes the parts independently. -/
theorem utf8Go_append :
    ∀ (a : List Nat) (st : Option (Nat × Nat × List Nat)) (b : List Nat)
      (ca : List Char),
    utf8Go st a = some ca →
    utf8Go st (a ++ b) = (utf8Go none b).map (fun cb => ca ++ cb) := by
  intro a
  induction a with
  | nil =>
    intro st b ca h
    cases st with
    | none =>
      rw [utf8Go, Option.some.injEq] at h
      subst h
      rw [List.nil_append]
      cases utf8Go none b <;> simp
    | some s =>
      rw [utf8Go] at h
      exact absurd h (by simp)
  | cons bb rest ih =>
    intro st b ca h
    cases st with
    | none =>
      rw [utf8Go] at h
      rw [List.cons_append, utf8Go]
      cases hn : utf8Need bb with
      | none => rw [hn] at h; exact absurd h (by simp)
      | some k =>
        rw [hn] at h
        cases k with
        | zero =>
          cases hr : utf8Go none rest with
          | none => rw [hr] at h; exact absurd h (by simp)
          | some ca2 =>
            rw [hr] at h
            simp only [Option.map_some', Option.some.injEq] at h
            subst h
            show (utf8Go none (rest ++ b)).map (fun cs => Char.ofNat bb :: cs)
                = Option.map (fun cb => (Char.ofNat bb :: ca2) ++ cb)
                    (utf8Go none b)
            rw [ih none b ca2 hr]
            cases utf8Go none b <;> simp
        | succ k =>
          exact ih _ b ca h
    | some s =>
      obtain ⟨lead, need, acc⟩ := s
      rw [utf8Go] at h
      rw [List.cons_append, utf8Go]
      by_cases hc : utf8Cont bb = true
      · rw [if_pos hc] at h ⊢
        by_cases hk : (acc.length + 1 == need) = true
        · rw [if_pos hk] at h ⊢
          cases hf : utf8Fin lead ((bb :: acc).reverse) with
          | none => rw [hf] at h; exact absurd h (by simp)
          | some c =>
            rw [hf] at h
            cases hr : utf8Go none rest with
            | none => rw [hr] at h; exact absurd h (by simp)
            | some ca2 =>
              rw [hr] at h
              simp only [Option.map_some', Option.some.injEq] at h
              subst h
              show (utf8Go none (rest ++ b)).map (fun cs => c :: cs)
                  = Option.map (fun cb => (c :: ca2) ++ cb) (utf8Go none b)
              rw [ih none b ca2 hr]
              cases utf8Go none b <;> simp
        · rw [if_neg hk] at h ⊢
          exact ih _ b ca h
      · rw [if_neg hc] at h
        exact absurd h (by simp)

/-- Decoding a valid UTF-8 piece commutes with appending further
bytes. -/
theorem utf8Decode_append (a b : List Nat) (ca : List Char)
    (h : utf8Decode a = some ca) :
    utf8Decode (a ++ b) = (utf8Decode b).map (fun cb => ca ++ cb) :=
  utf8Go_append a none b ca h

/-- Per-read-valid reads decode blockwise: the decode of the flattened
bytes is the flattening of the per-read decodes. -/
theorem utf8Decode_flatten :
    ∀ (rs : List (List Nat)),
    (∀ r ∈ rs, (utf8Decode r).isSome = true) →
    utf8Decode rs.flatten
      = some ((rs.map (fun r => (utf8Decode r).getD [])).flatten) := by
  intro rs
  induction rs with
  | nil => intro _; rfl
  | cons r rest ih =>
    intro hv
    obtain ⟨cr, hcr⟩ := Option.isSome_iff_exists.mp (hv r (by simp))
    rw [List.flatten_cons,
      utf8Decode_append r rest.flatten cr hcr,
      ih (fun x hx => hv x (by simp [hx]))]
    simp [hcr]

/-- When every read passes UTF-8 validation, the byte-level Groq unfold
is the char-level unfold on the decoded reads. -/
theorem groqGoB_valid :
    ∀ (rs : List (List Nat)) (buffer : List Char),
    (∀ r ∈ rs, (utf8Decode r).isSome = true) →
    groqGoB rs buffer
      = (groqGo (rs.map (fun r => (utf8Decode r).getD [])) buffer).map .ok := by
  intro rs
  induction rs with
  | nil => intro buffer _; rfl
  | cons r rest ih =>
    intro buffer hv
    obtain ⟨cs, hcs⟩ := Option.isSome_iff_exists.mp (hv r (by simp))
    rw [groqGoB, hcs]
    dsimp only
    rw [List.map_cons, groqGo]
    simp only [hcs, Option.getD_some, List.map_append]
    congr 1
    exact ih ((groqDrain buffer.length buffer).2 ++ cs)
      (fun x hx => hv x (by simp [hx]))

/-- C2 (amended): the SSE (Groq) decoder yields the same item sequence
for every split of the payload bytes whose reads each pass UTF-8
validation — in particular for every split of an ASCII payload and
every character-aligned split — but not for arbitrary byte splits: a
read boundary inside a multi-byte UTF-8 character makes String::from_utf8
reject the reads, yielding error items with the bytes dropped (see the
counterexample). The fragmented-JSON (Gemini) decoder, which buffers
raw bytes with no per-read validation (its reads are modelled directly
as symbol lists), is split-invariant whenever the single-read decode of
the payload is error-free. The newline-JSON (Ollama) decoder is not
split-invariant at all (see the counterexample). -/
theorem C2_split_invariance
    (bs1 bs2 : List (List Nat)) (rs1 rs2 : List (List Char))
    (hb : bs1.flatten = bs2.flatten)
    (hv1 : ∀ r ∈ bs1, (utf8Decode r).isSome = true)
    (hv2 : ∀ r ∈ bs2, (utf8Decode r).isSome = true)
    (hjoin : rs1.flatten = rs2.flatten) :
    groqDecodeB bs1 = groqDecodeB bs2 ∧
    (noErrI (geminiDecode [rs1.flatten]) = true →
      geminiDecode rs1 = geminiDecode rs2) := by
  constructor
  · have hflat : (bs1.map (fun r => (utf8Decode r).getD [])).flatten
        = (bs2.map (fun r => (utf8Decode r).getD [])).flatten := by
      have h1 := utf8Decode_flatten bs1 hv1
      have h2 := utf8Decode_flatten bs2 hv2
      rw [hb, h2] at h1
      exact (Option.some.inj h1).symm
    rw [groqDecodeB, groqDecodeB, groqGoB_valid bs1 [] hv1,
      groqGoB_valid bs2 [] hv2,
      groqGo_split (bs1.map (fun r => (utf8Decode r).getD [])) [],
      groqGo_split (bs2.map (fun r => (utf8Decode r).getD [])) [],
      List.nil_append, List.nil_append, hflat]
  · intro hne
    have hne' : noErrI (geminiDrain rs1.flatten.length rs1.flatten).1 = true := by
      rw [geminiDecode, geminiGo_single, noErrI_filter] at hne
      exact hne
    have h1 : geminiGo rs1 [] = (geminiDrain rs1.flatten.length rs1.flatten).1 := by
      have := geminiGo_split rs1 [] (by rw [List.nil_append]; exact hne')
      rwa [List.nil_append] at this
    have h2 : geminiGo rs2 [] = (geminiDrain rs2.flatten.length rs2.flatten).1 := by
      have := geminiGo_split rs2 [] (by rw [List.nil_append, ← hjoin]; exact hne')
      rwa [List.nil_append] at this
    rw [geminiDecode, geminiDecode, h1, h2, hjoin]

/-- C2 witness: the invariance theorem applied, for Groq, to a
byte-level split of the accent event at an ASCII boundary (both reads
pass UTF-8 validation) and, for Gemini, to a two-read split of a
well-formed array payload. -/
theorem C2_witness :
    groqDecodeB [sseAccentBytes.take 10, sseAccentBytes.drop 10]
        = groqDecodeB [sseAccentBytes] ∧
    geminiDecode [gemValid.take 10, gemValid.drop 10] = geminiDecode [gemValid] :=
  ⟨(C2_split_invariance [sseAccentBytes.take 10, sseAccentBytes.drop 10]
      [sseAccentBytes] [gemValid.take 10, gemValid.drop 10] [gemValid]
      (by decide) (by decide) (by decide) (by decide)).1,
   (C2_split_invariance [sseAccentBytes.take 10, sseAccentBytes.drop 10]
      [sseAccentBytes] [gemValid.take 10, gemValid.drop 10] [gemValid]
      (by decide) (by decide) (by decide) (by decide)).2 (by decide)⟩

/-- C9 (amended): a ran-out-of-bytes parse outcome on the buffered bytes
never produces any item — the decoder waits for more bytes — while any
other decode error yields an error item and clears the buffer, but the
error item is NOT terminal: the stream goes on decoding the subsequent
reads, exactly as if it had started from an empty buffer (see the
counterexample for a chunk following an error item). -/
theorem C9_eof_waits_error_continues (buffer buffer2 : List Char)
    (rs : List (List Char))
    (h1 : (parseOneVal .arrTop buffer).isMoreOut = true)
    (h2 : (parseOneVal .arrTop buffer2).isBadOut = true) :
    (geminiDrain buffer.length buffer).1 = [] ∧
    geminiGo rs buffer2 = .error .json :: geminiGo rs [] := by
  constructor
  · cases hp : parseOneVal .arrTop buffer with
    | val v rest => rw [hp] at h1; simp [POut.isMoreOut] at h1
    | bad => rw [hp] at h1; simp [POut.isMoreOut] at h1
    | more st => rw [geminiDrainL_more buffer st hp]
  · cases hp : parseOneVal .arrTop buffer2 with
    | val v rest => rw [hp] at h2; simp [POut.isBadOut] at h2
    | more st => rw [hp] at h2; simp [POut.isBadOut] at h2
    | bad =>
      have hdrain := geminiDrainL_bad buffer2 hp
      cases rs with
      | nil =>
        rw [geminiGo, geminiGo, hdrain]
        rfl
      | cons r rs' =>
        rw [geminiGo, geminiGo, hdrain]
        simp [geminiDrain]

/-- C9 witness: the amended theorem applied to an incomplete array
prefix and the syntax-error read "X". -/
theorem C9_witness :
    (geminiDrain ("[\x7b".data).length "[\x7b".data).1 = [] ∧
    geminiGo [gemValid] "X".data
      = .error .json :: geminiGo [gemValid] [] :=
  C9_eof_waits_error_continues "[\x7b".data "X".data [gemValid]
    (by decide) (by decide)

end LlmRepl
